import Mathlib

/-!
Shallow embedding of `src/index.js` of Surrealigrate, a SurrealDB migration CLI.

Versions are filename tokens (strings); the source coerces them with JavaScript
`parseInt`, whose failure value `NaN` and `Math.max()`'s empty-case `-Infinity`
both flow into planning comparisons.  We therefore model the relevant subset of
JavaScript numbers explicitly (`JSNum`), and keep version keys as strings, as
the source does.

The database is modelled by the migrations ledger (the only table the engine
itself owns) plus oracles: `execOk` says whether a given script file's content
executes successfully inside its transaction, and `readOk` says whether the
ledger `SELECT` succeeds (`getCurrentVersion` swallows that failure).  Runs
return the final ledger, a trace of the queries issued, and an outcome that
records how the invocation ended.
-/

namespace Surrealigrate

/-- The subset of JavaScript numbers the migration engine can produce for a
version: an integer, `NaN` (failed `parseInt`), or `-Infinity`
(`Math.max()` of an empty spread). -/
inductive JSNum where
  | int (n : Int)
  | nan
  | negInf
deriving Repr, DecidableEq

/-- JavaScript `a < b` (comparisons involving `NaN` are false). -/
def JSNum.ltB : JSNum → JSNum → Bool
  | .int a, .int b => a < b
  | .nan, _ => false
  | _, .nan => false
  | .negInf, .negInf => false
  | .negInf, .int _ => true
  | .int _, .negInf => false

/-- JavaScript `a <= b` (comparisons involving `NaN` are false). -/
def JSNum.leB : JSNum → JSNum → Bool
  | .int a, .int b => a ≤ b
  | .nan, _ => false
  | _, .nan => false
  | .negInf, _ => true
  | .int _, .negInf => false

/-- JavaScript `a >= b`. -/
def JSNum.geB (a b : JSNum) : Bool := JSNum.leB b a

/-- JavaScript strict equality `a === b` (`NaN` equals nothing). -/
def JSNum.seqB : JSNum → JSNum → Bool
  | .int a, .int b => a == b
  | .negInf, .negInf => true
  | _, _ => false

/-- Integer value of a `JSNum`, defaulting to 0; only used where the source's
control flow guarantees the value is an integer. -/
def JSNum.toIntD : JSNum → Int
  | .int n => n
  | _ => 0

/-- JavaScript `Math.max` on two values restricted to our subset
(`NaN` absorbs, `-Infinity` is the identity). -/
def jsMax2 : JSNum → JSNum → JSNum
  | .nan, _ => .nan
  | _, .nan => .nan
  | .negInf, b => b
  | a, .negInf => a
  | .int a, .int b => .int (max a b)

/-- JavaScript `Math.max(...xs)`: `-Infinity` when `xs` is empty, `NaN` if any
argument is `NaN`, otherwise the maximum. -/
def jsMax (xs : List JSNum) : JSNum := xs.foldl jsMax2 .negInf

/-- Numeric value of a decimal digit character. -/
def digitVal (c : Char) : Nat := c.toNat - '0'.toNat

/-- Value of a (non-empty) list of decimal digit characters. -/
def digitsToNat (ds : List Char) : Nat := ds.foldl (fun a c => a * 10 + digitVal c) 0

/-- JavaScript whitespace skipped by `parseInt` (common cases). -/
def isWS (c : Char) : Bool := c = ' ' || c = '\t' || c = '\n' || c = '\r'

/-- Core of JavaScript `parseInt(s, 10)` after whitespace stripping: optional
sign, then the longest prefix of decimal digits; `NaN` when there is none. -/
def parseIntChars : List Char → JSNum
  | '-' :: rest =>
    match rest.takeWhile Char.isDigit with
    | [] => .nan
    | ds => .int (-(digitsToNat ds : Int))
  | '+' :: rest =>
    match rest.takeWhile Char.isDigit with
    | [] => .nan
    | ds => .int (digitsToNat ds)
  | cs =>
    match cs.takeWhile Char.isDigit with
    | [] => .nan
    | ds => .int (digitsToNat ds)

/-- JavaScript `parseInt(s)` as used throughout `src/index.js`. -/
def parseIntJS (s : String) : JSNum := parseIntChars (s.data.dropWhile isWS)

/-- Is `needle` a prefix of `hay`? -/
def leadsWith : List Char → List Char → Bool
  | [], _ => true
  | _ :: _, [] => false
  | a :: as, b :: bs => a = b && leadsWith as bs

/-- JavaScript `hay.includes(needle)`: substring containment. -/
def hasSubstring (needle : List Char) : List Char → Bool
  | [] => leadsWith needle []
  | c :: rest => leadsWith needle (c :: rest) || hasSubstring needle rest

/-- JavaScript `s.split('.')`. -/
def splitOnDot : List Char → List (List Char)
  | [] => [[]]
  | c :: rest =>
    let r := splitOnDot rest
    if c = '.' then [] :: r
    else
      match r with
      | [] => [[c]]
      | g :: gs => (c :: g) :: gs

/-- `titleParts.join('.')`. -/
def joinDots : List (List Char) → List Char
  | [] => []
  | [g] => g
  | g :: gs => g ++ '.' :: joinDots gs

/-- `path.basename(file, '.surql')`: drop a trailing `.surql` when present
(readdir yields bare filenames, so there is no directory part to strip). -/
def stripExt (cs : List Char) : List Char :=
  if leadsWith ".surql".data.reverse cs.reverse then cs.take (cs.length - 6) else cs

/-- `const [version, action, ...titleParts] = path.basename(file, '.surql').split('.')`
with `title = titleParts.join('.')`.  Every file reaching this point contains
`.do.` or `.undo.`, so the split always has at least two components. -/
def parseName (file : String) : String × String × String :=
  let parts := splitOnDot (stripExt file.data)
  (⟨parts.headD []⟩, ⟨(parts.drop 1).headD []⟩, ⟨joinDots (parts.drop 2)⟩)

/-- One discovered migration unit: the object the scanner's `reduce` builds per
version key.  `doFile` / `undoFile` hold the `acc[version].do` /
`acc[version].undo` filenames. -/
structure MigUnit where
  title : String
  doFile : Option String
  undoFile : Option String
deriving Repr, DecidableEq

/-- The scanner's accumulator object: version-string keys to units, in
insertion order. -/
abbrev UnitMap := List (String × MigUnit)

/-- Read `acc[version]`. -/
def getUnit (m : UnitMap) (k : String) : Option MigUnit :=
  (m.find? (fun p => p.1 == k)).map (fun p => p.2)

/-- Read `acc[version]`, with a dummy default for the (unreachable) missing
case: keys handed to this function come from the map itself. -/
def getUnitD (m : UnitMap) (k : String) : MigUnit :=
  (getUnit m k).getD ⟨"", none, none⟩

/-- Write `acc[version] = u` (overwrite in place, or append a fresh key). -/
def setUnit (m : UnitMap) (k : String) (u : MigUnit) : UnitMap :=
  if m.any (fun p => p.1 == k) then m.map (fun p => if p.1 == k then (k, u) else p)
  else m ++ [(k, u)]

/-- One step of the scanner's `reduce`. -/
def scanStep (acc : UnitMap) (file : String) : UnitMap :=
  let (version, action, title) := parseName file
  let acc1 := if (getUnit acc version).isNone then acc ++ [(version, ⟨title, none, none⟩)] else acc
  let u := getUnitD acc1 version
  let u1 := if action == "do" then MigUnit.mk u.title (some file) u.undoFile
            else if action == "undo" then MigUnit.mk u.title u.doFile (some file)
            else u
  setUnit acc1 version u1

/-- `getMigrationFiles(directory)`: filter names containing `.do.` or `.undo.`
and fold them into the per-version unit map.  The directory read is modelled by
the list of filenames it yields. -/
def getMigrationFiles (files : List String) : UnitMap :=
  (files.filter (fun f =>
      hasSubstring ".do.".data f.data || hasSubstring ".undo.".data f.data)).foldl scanStep []

/-- A row of the `migrations` table: `CREATE migrations SET version = ..`
stores no `title` field when the title argument is falsy. -/
structure Entry where
  version : Int
  title : Option String
deriving Repr, DecidableEq

/-- The `migrations` table, in row-creation order. -/
abbrev Ledger := List Entry

/-- The row returned by `SELECT * FROM migrations ORDER BY version DESC LIMIT 1`:
an entry of maximal version (the unique index on `version` makes ties
impossible in reachable states). -/
def ledgerTop : Ledger → Option Entry
  | [] => none
  | e :: es =>
    match ledgerTop es with
    | none => some e
    | some m => if m.version > e.version then some m else some e

/-- `getCurrentVersion()`: version of the top row, or 0 when the table is empty
(`?.version || 0`; `|| 0` is the identity on integer versions).  A failing
query is caught and also yields 0 (`readOk = false`). -/
def getCurrentVersion (l : Ledger) (readOk : Bool) : Int :=
  if readOk then
    match ledgerTop l with
    | some e => e.version
    | none => 0
  else 0

/-- `setCurrentVersion(version, title)`: `CREATE migrations SET version = ..`
(with `title` only when truthy, i.e. non-empty).  The `UNIQUE` index on
`version` defined by `connectToDatabase` makes the insert fail on a duplicate
version; the source catches, logs and re-throws, so failure is reported
(`false`) with the table unchanged. -/
def setCurrentVersion (version : Int) (title : String) (l : Ledger) : Ledger × Bool :=
  if l.any (fun e => e.version == version) then (l, false)
  else if title == "" then (l ++ [⟨version, none⟩], true)
  else (l ++ [⟨version, some title⟩], true)

/-- Queries a run issues, as far as the claims observe them: transaction
markers around each script, the script execution itself (tagged with the
version being migrated, as the surrounding loop's log line does), and ledger
writes. -/
inductive Event where
  | txBegin
  | txCommit
  | txCancel
  | script (version : Int) (file : String)
  | createEntry (version : Int) (title : String)
  | deleteEntry (version : Int)
deriving Repr, DecidableEq

/-- How an invocation of `migrate` / `rollback` ended. -/
inductive Outcome where
  | ok
  | warnDirection
  | upToDate
  | scriptFailed (file : String)
  | ledgerFailed (version : Int)
  | badPath (version : String)
deriving Repr, DecidableEq

/-- Result of a run: final ledger, query trace, and outcome. -/
structure RunOut where
  ledger : Ledger
  trace : List Event
  outcome : Outcome
deriving Repr, DecidableEq

/-- The versions of the scripts a trace executed, in execution order. -/
def executedVersions (tr : List Event) : List Int :=
  tr.filterMap (fun e => match e with | .script n _ => some n | _ => none)

/-- The loop guard of `migrate`:
`parseInt(version) > currentVersion && parseInt(version) <= targetVersion`. -/
def guardA (cur : Int) (target : JSNum) (v : String) : Bool :=
  JSNum.ltB (.int cur) (parseIntJS v) && JSNum.leB (parseIntJS v) target

/-- The loop guard of `rollback`:
`parseInt(version) <= currentVersion && parseInt(version) > targetVersion`. -/
def guardR (cur : Int) (target : JSNum) (v : String) : Bool :=
  JSNum.leB (parseIntJS v) (.int cur) && JSNum.ltB target (parseIntJS v)

/-- The `for (const version of versions)` loop of `migrate`.  For an in-range
version: a missing `do` file makes `path.join(directory, undefined)` throw a
`TypeError` (outcome `badPath`); otherwise `executeMigration` wraps the script
in BEGIN/COMMIT, cancelling and re-throwing on failure, and then
`setCurrentVersion` records the version, its failure also aborting the run. -/
def migrateLoop (m : UnitMap) (cur : Int) (target : JSNum) (execOk : String → Bool) :
    Ledger → List String → RunOut
  | l, [] => ⟨l, [], .ok⟩
  | l, v :: rest =>
    if guardA cur target v then
      let u := getUnitD m v
      match u.doFile with
      | none => ⟨l, [], .badPath v⟩
      | some f =>
        let n := (parseIntJS v).toIntD
        if execOk f then
          match setCurrentVersion n u.title l with
          | (l2, true) =>
            let r := migrateLoop m cur target execOk l2 rest
            ⟨r.ledger, .txBegin :: .script n f :: .txCommit :: .createEntry n u.title :: r.trace,
             r.outcome⟩
          | (l2, false) => ⟨l2, [.txBegin, .script n f, .txCommit], .ledgerFailed n⟩
        else ⟨l, [.txBegin, .script n f, .txCancel], .scriptFailed f⟩
    else migrateLoop m cur target execOk l rest

/-- Sort key of the comparators `(a, b) => parseInt(a) - parseInt(b)` (resp.
reversed).  On keys that parse to integers the comparators are consistent and
any stable sort models `Array.prototype.sort`; a `NaN` comparator value leaves
the order implementation-defined, modelled here by treating `NaN` as 0 (no
theorem below relies on the order of non-integer keys). -/
def sortKey (v : String) : Int := (parseIntJS v).toIntD

/-- Ascending order on version strings, as `migrate` sorts them. -/
def ascOrder (a b : String) : Prop := sortKey a ≤ sortKey b

/-- Descending order on version strings, as `rollback` sorts them. -/
def descOrder (a b : String) : Prop := sortKey b ≤ sortKey a

instance : DecidableRel ascOrder := fun a b => Int.decLe (sortKey a) (sortKey b)

instance : DecidableRel descOrder := fun a b => Int.decLe (sortKey b) (sortKey a)

instance : IsTotal String ascOrder := ⟨fun a b => Int.le_total (sortKey a) (sortKey b)⟩

instance : IsTrans String ascOrder := ⟨fun _ _ _ h h2 => le_trans h h2⟩

instance : IsTotal String descOrder := ⟨fun a b => Int.le_total (sortKey b) (sortKey a)⟩

instance : IsTrans String descOrder := ⟨fun _ _ _ h h2 => le_trans h2 h⟩

/-- Is `s` a JavaScript array-index key (canonical decimal below 2^32 - 1)?
Such object keys enumerate first, in ascending numeric order. -/
def isArrayIndexKey (s : String) : Bool :=
  let cs := s.data
  !cs.isEmpty && cs.all Char.isDigit && (cs == ['0'] || cs.headD '0' != '0')
    && digitsToNat cs < 4294967295

/-- `Object.keys` on the scanner's map: array-index keys ascending first, then
the remaining keys in insertion order. -/
def objectKeys (m : UnitMap) : List String :=
  let ks := m.map (fun p => p.1)
  List.insertionSort ascOrder (ks.filter isArrayIndexKey)
    ++ ks.filter (fun k => !isArrayIndexKey k)

/-- `migrate(directory, toVersion)` after `getMigrationFiles`: plan target,
direction/up-to-date guards, then the apply loop.  `toVersion` is the CLI
string; an empty string is falsy in `toVersion ? parseInt(toVersion) : ...`. -/
def migrateCore (m : UnitMap) (toVersion : Option String) (l : Ledger) (readOk : Bool)
    (execOk : String → Bool) : RunOut :=
  let currentVersion := getCurrentVersion l readOk
  let versions := List.insertionSort ascOrder (objectKeys m)
  let targetVersion :=
    match toVersion with
    | some tv => if tv == "" then jsMax (versions.map parseIntJS) else parseIntJS tv
    | none => jsMax (versions.map parseIntJS)
  if JSNum.ltB targetVersion (.int currentVersion) then ⟨l, [], .warnDirection⟩
  else if JSNum.seqB targetVersion (.int currentVersion) then ⟨l, [], .upToDate⟩
  else migrateLoop m currentVersion targetVersion execOk l versions

/-- `migrate(directory, toVersion)` from the directory's filenames. -/
def migrate (dirFiles : List String) (toVersion : Option String) (l : Ledger) (readOk : Bool)
    (execOk : String → Bool) : RunOut :=
  migrateCore (getMigrationFiles dirFiles) toVersion l readOk execOk

/-- The `for (const version of versions)` loop of `rollback`: for an in-range
version, a missing `undo` file throws the `path.join` `TypeError`; otherwise
the script runs transactionally and `DELETE migrations WHERE version = ..`
removes the entry. -/
def rollbackLoop (m : UnitMap) (cur : Int) (target : JSNum) (execOk : String → Bool) :
    Ledger → List String → RunOut
  | l, [] => ⟨l, [], .ok⟩
  | l, v :: rest =>
    if guardR cur target v then
      let u := getUnitD m v
      match u.undoFile with
      | none => ⟨l, [], .badPath v⟩
      | some f =>
        let n := (parseIntJS v).toIntD
        if execOk f then
          let l2 := l.filter (fun e => !(e.version == n))
          let r := rollbackLoop m cur target execOk l2 rest
          ⟨r.ledger, .txBegin :: .script n f :: .txCommit :: .deleteEntry n :: r.trace, r.outcome⟩
        else ⟨l, [.txBegin, .script n f, .txCancel], .scriptFailed f⟩
    else rollbackLoop m cur target execOk l rest

/-- `rollback(directory, toVersion)` after `getMigrationFiles`: descending
sort, default target `currentVersion - 1`, direction guard, revert loop. -/
def rollbackCore (m : UnitMap) (toVersion : Option String) (l : Ledger) (readOk : Bool)
    (execOk : String → Bool) : RunOut :=
  let currentVersion := getCurrentVersion l readOk
  let versions := List.insertionSort descOrder (objectKeys m)
  let targetVersion :=
    match toVersion with
    | some tv => if tv == "" then JSNum.int (currentVersion - 1) else parseIntJS tv
    | none => JSNum.int (currentVersion - 1)
  if JSNum.geB targetVersion (.int currentVersion) then ⟨l, [], .warnDirection⟩
  else rollbackLoop m currentVersion targetVersion execOk l versions

/-- `rollback(directory, toVersion)` from the directory's filenames. -/
def rollback (dirFiles : List String) (toVersion : Option String) (l : Ledger) (readOk : Bool)
    (execOk : String → Bool) : RunOut :=
  rollbackCore (getMigrationFiles dirFiles) toVersion l readOk execOk

/-- `getCurrentVersionInfo()`: top row's `{version, title}` with the source's
defaults for an empty table and for a failing query.  A stored row without a
`title` field reads back as `undefined`. -/
def getCurrentVersionInfo (l : Ledger) (readOk : Bool) : Int × String :=
  if readOk then
    match ledgerTop l with
    | some e => (e.version, e.title.getD "undefined")
    | none => (0, "No migrations applied")
  else (0, "Error retrieving version info")

/-- The record `getInfo` returns. -/
structure InfoOut where
  currentVersion : Int
  currentVersionTitle : String
  latestVersion : JSNum
  pendingMigrations : List (String × String)
deriving Repr, DecidableEq

/-- `getInfo(directory)`: current version info, `Math.max` over all parsed
versions, and the pending list (`title || 'Untitled'`). -/
def getInfo (dirFiles : List String) (l : Ledger) (readOk : Bool) : InfoOut :=
  let m := getMigrationFiles dirFiles
  let info := getCurrentVersionInfo l readOk
  let versions := List.insertionSort ascOrder (objectKeys m)
  let latestVersion := jsMax (versions.map parseIntJS)
  let pendingMigrations :=
    (versions.filter (fun v => JSNum.ltB (.int info.1) (parseIntJS v))).map
      (fun v => (v, if (getUnitD m v).title == "" then "Untitled" else (getUnitD m v).title))
  ⟨info.1, info.2, latestVersion, pendingMigrations⟩

/-- The ledger entry a successful apply of version `v` creates
(`setCurrentVersion` stores the title only when it is truthy). -/
def entryOf (m : UnitMap) (v : String) : Entry :=
  ⟨sortKey v, if (getUnitD m v).title == "" then none else some (getUnitD m v).title⟩

/-- The queries a successful apply of version `v` issues. -/
def eventsOfA (m : UnitMap) (v : String) : List Event :=
  [.txBegin, .script (sortKey v) ((getUnitD m v).doFile.getD ""), .txCommit,
   .createEntry (sortKey v) (getUnitD m v).title]

/-- The queries a successful revert of version `v` issues. -/
def eventsOfR (m : UnitMap) (v : String) : List Event :=
  [.txBegin, .script (sortKey v) ((getUnitD m v).undoFile.getD ""), .txCommit,
   .deleteEntry (sortKey v)]

/-- Ledger states reachable from the initial empty `migrations` table by apply
and revert invocations (over any directory contents, CLI target, read-failure
behaviour and script outcomes). -/
inductive Reachable : Ledger → Prop where
  | init : Reachable []
  | stepMigrate (dirFiles : List String) (tv : Option String) (ro : Bool)
      (ek : String → Bool) {l : Ledger} :
      Reachable l → Reachable (migrate dirFiles tv l ro ek).ledger
  | stepRollback (dirFiles : List String) (tv : Option String) (ro : Bool)
      (ek : String → Bool) {l : Ledger} :
      Reachable l → Reachable (rollback dirFiles tv l ro ek).ledger

/-! ### Lemmas about the JavaScript number model and guards -/

theorem guardA_int_iff {c t : Int} {v : String} :
    guardA c (.int t) v = true ↔ ∃ n : Int, parseIntJS v = .int n ∧ c < n ∧ n ≤ t := by
  unfold guardA
  cases h : parseIntJS v with
  | int n => simp [JSNum.ltB, JSNum.leB]
  | nan => simp [JSNum.ltB]
  | negInf => simp [JSNum.ltB]

theorem guardR_int_iff {c t : Int} {v : String} :
    guardR c (.int t) v = true ↔ ∃ n : Int, parseIntJS v = .int n ∧ t < n ∧ n ≤ c := by
  unfold guardR
  cases h : parseIntJS v with
  | int n => simp [JSNum.ltB, JSNum.leB, and_comm]
  | nan => simp [JSNum.leB]
  | negInf => simp [JSNum.ltB, JSNum.leB]

theorem sortKey_of_parse {v : String} {n : Int} (h : parseIntJS v = .int n) : sortKey v = n := by
  simp [sortKey, h, JSNum.toIntD]

/-! ### Lemmas about the ledger -/

theorem ledgerTop_isSome {l : Ledger} (h : l ≠ []) : (ledgerTop l).isSome = true := by
  cases l with
  | nil => exact absurd rfl h
  | cons e es =>
    simp only [ledgerTop]
    cases ledgerTop es with
    | none => rfl
    | some m => by_cases hv : m.version > e.version <;> simp [hv]

theorem ledgerTop_eq_none {l : Ledger} : ledgerTop l = none ↔ l = [] := by
  cases l with
  | nil => simp [ledgerTop]
  | cons e es =>
    simp only [ledgerTop]
    constructor
    · intro h
      rcases hes : ledgerTop es with _ | m <;> rw [hes] at h
      · cases h
      · by_cases hv : m.version > e.version <;> simp [hv] at h
    · intro h; cases h

theorem ledgerTop_le {l : Ledger} {e : Entry} (he : e ∈ l) :
    ∀ {t : Entry}, ledgerTop l = some t → e.version ≤ t.version := by
  induction l with
  | nil => cases he
  | cons a as ih =>
    intro t ht
    simp only [ledgerTop] at ht
    rcases has : ledgerTop as with _ | m <;> rw [has] at ht <;> dsimp only at ht
    · injection ht with h1
      subst h1
      have hnil : as = [] := ledgerTop_eq_none.mp has
      subst hnil
      rcases List.mem_singleton.mp he with rfl
      exact le_refl _
    · rcases List.mem_cons.mp he with rfl | hmem
      · by_cases hv : m.version > e.version
        · rw [if_pos hv] at ht; injection ht with h1; subst h1; omega
        · rw [if_neg hv] at ht; injection ht with h1; subst h1; exact le_refl _
      · have hle := ih hmem has
        by_cases hv : m.version > a.version
        · rw [if_pos hv] at ht; injection ht with h1; subst h1; exact hle
        · rw [if_neg hv] at ht; injection ht with h1; subst h1; omega

theorem version_le_getCurrentVersion {l : Ledger} {e : Entry} (he : e ∈ l) :
    e.version ≤ getCurrentVersion l true := by
  unfold getCurrentVersion
  have hne : l ≠ [] := by rintro rfl; cases he
  rcases Option.isSome_iff_exists.mp (ledgerTop_isSome hne) with ⟨t, ht⟩
  rw [ht]
  simpa using ledgerTop_le he ht

theorem setCurrentVersion_fresh {n : Int} {t : String} {l : Ledger}
    (h : ∀ e ∈ l, e.version ≠ n) :
    setCurrentVersion n t l = (l ++ [⟨n, if t == "" then none else some t⟩], true) := by
  unfold setCurrentVersion
  have hany : l.any (fun e => e.version == n) = false := by
    simp only [List.any_eq_false]
    intro e he
    simpa using h e he
  rw [hany]
  by_cases ht : t == "" <;> simp [ht]

theorem setCurrentVersion_dup {n : Int} {t : String} {l : Ledger}
    (h : ∃ e ∈ l, e.version = n) : setCurrentVersion n t l = (l, false) := by
  unfold setCurrentVersion
  have hany : l.any (fun e => e.version == n) = true := by
    simp only [List.any_eq_true]
    rcases h with ⟨e, he, hv⟩
    exact ⟨e, he, by simpa using hv⟩
  rw [hany]
  simp

/-! ### Lemmas about `Math.max` over parsed versions -/

theorem foldl_jsMax2_int {xs : List JSNum} (hxs : ∀ x ∈ xs, ∃ n : Int, x = .int n) (a : Int) :
    ∃ T : Int, xs.foldl jsMax2 (.int a) = .int T ∧ a ≤ T ∧ (T = a ∨ JSNum.int T ∈ xs) ∧
      ∀ n : Int, JSNum.int n ∈ xs → n ≤ T := by
  induction xs generalizing a with
  | nil => exact ⟨a, rfl, le_refl _, Or.inl rfl, by simp⟩
  | cons x rest ih =>
    rcases hxs x (List.mem_cons_self _ _) with ⟨b, rfl⟩
    have hrest : ∀ x ∈ rest, ∃ n : Int, x = .int n := fun x hx => hxs x (List.mem_cons_of_mem _ hx)
    rcases ih hrest (max a b) with ⟨T, hfold, hle, hmem, hbound⟩
    refine ⟨T, ?_, le_trans (le_max_left a b) hle, ?_, ?_⟩
    · simpa [jsMax2] using hfold
    · rcases hmem with rfl | hin
      · rcases max_choice a b with h | h
        · exact Or.inl h
        · exact Or.inr (by rw [h]; exact List.mem_cons_self _ _)
      · exact Or.inr (List.mem_cons_of_mem _ hin)
    · intro n hn
      rcases List.mem_cons.mp hn with h | h
      · injection h with h2
        rw [h2]
        exact le_trans (le_max_right a b) hle
      · exact hbound n h

theorem jsMax_int {xs : List JSNum} (hne : xs ≠ []) (hxs : ∀ x ∈ xs, ∃ n : Int, x = .int n) :
    ∃ T : Int, jsMax xs = .int T ∧ JSNum.int T ∈ xs ∧ ∀ n : Int, JSNum.int n ∈ xs → n ≤ T := by
  cases xs with
  | nil => exact absurd rfl hne
  | cons x rest =>
    rcases hxs x (List.mem_cons_self _ _) with ⟨b, rfl⟩
    have hrest : ∀ x ∈ rest, ∃ n : Int, x = .int n := fun x hx => hxs x (List.mem_cons_of_mem _ hx)
    rcases foldl_jsMax2_int hrest b with ⟨T, hfold, hle, hmem, hbound⟩
    refine ⟨T, ?_, ?_, ?_⟩
    · simpa [jsMax, jsMax2] using hfold
    · rcases hmem with rfl | hin
      · exact List.mem_cons_self _ _
      · exact List.mem_cons_of_mem _ hin
    · intro n hn
      rcases List.mem_cons.mp hn with h | h
      · injection h with h2; rw [h2]; exact hle
      · exact hbound n h

/-! ### Lemmas about the unit map and version ordering -/

theorem find?_eq_of_mem {m : UnitMap} (hnd : (m.map (fun p => p.1)).Nodup) {v : String}
    {u : MigUnit} (h : (v, u) ∈ m) : m.find? (fun p => p.1 == v) = some (v, u) := by
  induction m with
  | nil => cases h
  | cons p rest ih =>
    simp only [List.map_cons, List.nodup_cons] at hnd
    rcases List.mem_cons.mp h with rfl | hmem
    · simp [List.find?]
    · have hv : v ∈ rest.map (fun p => p.1) := List.mem_map.mpr ⟨(v, u), hmem, rfl⟩
      have hne : p.1 ≠ v := fun hEq => hnd.1 (by rw [hEq]; exact hv)
      rw [List.find?_cons_of_neg _ (by simpa using hne)]
      exact ih hnd.2 hmem

theorem getUnitD_eq_of_mem {m : UnitMap} (hnd : (m.map (fun p => p.1)).Nodup) {v : String}
    {u : MigUnit} (h : (v, u) ∈ m) : getUnitD m v = u := by
  unfold getUnitD getUnit
  rw [find?_eq_of_mem hnd h]
  rfl

theorem objectKeys_perm (m : UnitMap) : List.Perm (objectKeys m) (m.map (fun p => p.1)) := by
  unfold objectKeys
  exact ((List.perm_insertionSort _ _).append (List.Perm.refl _)).trans
    (List.filter_append_perm _ _)

theorem versionsAsc_perm (m : UnitMap) :
    List.Perm (List.insertionSort ascOrder (objectKeys m)) (m.map (fun p => p.1)) :=
  (List.perm_insertionSort _ _).trans (objectKeys_perm m)

theorem versionsDesc_perm (m : UnitMap) :
    List.Perm (List.insertionSort descOrder (objectKeys m)) (m.map (fun p => p.1)) :=
  (List.perm_insertionSort _ _).trans (objectKeys_perm m)

theorem mem_versionsAsc {m : UnitMap} {v : String} :
    v ∈ List.insertionSort ascOrder (objectKeys m) ↔ ∃ u, (v, u) ∈ m := by
  rw [(versionsAsc_perm m).mem_iff]
  constructor
  · intro h
    rcases List.mem_map.mp h with ⟨⟨v0, u⟩, hp, hv⟩
    subst hv
    exact ⟨u, hp⟩
  · rintro ⟨u, hu⟩
    exact List.mem_map.mpr ⟨(v, u), hu, rfl⟩

theorem mem_versionsDesc {m : UnitMap} {v : String} :
    v ∈ List.insertionSort descOrder (objectKeys m) ↔ ∃ u, (v, u) ∈ m := by
  rw [(versionsDesc_perm m).mem_iff]
  constructor
  · intro h
    rcases List.mem_map.mp h with ⟨⟨v0, u⟩, hp, hv⟩
    subst hv
    exact ⟨u, hp⟩
  · rintro ⟨u, hu⟩
    exact List.mem_map.mpr ⟨(v, u), hu, rfl⟩

/-! ### Step equations for the apply loop -/

theorem migrateLoop_nil {m : UnitMap} {cur : Int} {target : JSNum} {ek : String → Bool}
    {l : Ledger} : migrateLoop m cur target ek l [] = ⟨l, [], .ok⟩ := rfl

theorem migrateLoop_cons_skip {m : UnitMap} {cur : Int} {target : JSNum} {ek : String → Bool}
    {l : Ledger} {v : String} {rest : List String} (hg : guardA cur target v = false) :
    migrateLoop m cur target ek l (v :: rest) = migrateLoop m cur target ek l rest := by
  simp only [migrateLoop, hg, Bool.false_eq_true, if_false]

theorem migrateLoop_cons_missing {m : UnitMap} {cur : Int} {target : JSNum} {ek : String → Bool}
    {l : Ledger} {v : String} {rest : List String} (hg : guardA cur target v = true)
    (hf : (getUnitD m v).doFile = none) :
    migrateLoop m cur target ek l (v :: rest) = ⟨l, [], .badPath v⟩ := by
  simp only [migrateLoop, hg, if_true, hf]

theorem migrateLoop_cons_scriptfail {m : UnitMap} {cur : Int} {target : JSNum}
    {ek : String → Bool} {l : Ledger} {v : String} {rest : List String} {f : String}
    (hg : guardA cur target v = true) (hf : (getUnitD m v).doFile = some f)
    (he : ek f = false) :
    migrateLoop m cur target ek l (v :: rest) =
      ⟨l, [.txBegin, .script (sortKey v) f, .txCancel], .scriptFailed f⟩ := by
  simp only [migrateLoop, hg, if_true, hf, he, Bool.false_eq_true, if_false]
  rfl

theorem migrateLoop_cons_dup {m : UnitMap} {cur : Int} {target : JSNum} {ek : String → Bool}
    {l : Ledger} {v : String} {rest : List String} {f : String}
    (hg : guardA cur target v = true) (hf : (getUnitD m v).doFile = some f)
    (he : ek f = true) (hdup : ∃ e ∈ l, e.version = sortKey v) :
    migrateLoop m cur target ek l (v :: rest) =
      ⟨l, [.txBegin, .script (sortKey v) f, .txCommit], .ledgerFailed (sortKey v)⟩ := by
  simp only [migrateLoop, hg, if_true, hf, he]
  rw [show (parseIntJS v).toIntD = sortKey v from rfl, setCurrentVersion_dup hdup]

theorem migrateLoop_cons_apply {m : UnitMap} {cur : Int} {target : JSNum} {ek : String → Bool}
    {l : Ledger} {v : String} {rest : List String} {f : String}
    (hg : guardA cur target v = true) (hf : (getUnitD m v).doFile = some f)
    (he : ek f = true) (hfresh : ∀ e ∈ l, e.version ≠ sortKey v) :
    migrateLoop m cur target ek l (v :: rest) =
      ⟨(migrateLoop m cur target ek (l ++ [entryOf m v]) rest).ledger,
       eventsOfA m v ++ (migrateLoop m cur target ek (l ++ [entryOf m v]) rest).trace,
       (migrateLoop m cur target ek (l ++ [entryOf m v]) rest).outcome⟩ := by
  simp only [migrateLoop, hg, if_true, hf, he]
  rw [show (parseIntJS v).toIntD = sortKey v from rfl, setCurrentVersion_fresh hfresh]
  simp [eventsOfA, entryOf, hf]

theorem migrateLoop_cons_exec {m : UnitMap} {cur : Int} {target : JSNum} {ek : String → Bool}
    {l : Ledger} {v : String} {rest : List String} {f : String}
    (hg : guardA cur target v = true) (hf : (getUnitD m v).doFile = some f)
    (he : ek f = true) :
    migrateLoop m cur target ek l (v :: rest) =
      (match setCurrentVersion (sortKey v) (getUnitD m v).title l with
       | (l2, true) =>
         ⟨(migrateLoop m cur target ek l2 rest).ledger,
          .txBegin :: .script (sortKey v) f :: .txCommit ::
            .createEntry (sortKey v) (getUnitD m v).title ::
              (migrateLoop m cur target ek l2 rest).trace,
          (migrateLoop m cur target ek l2 rest).outcome⟩
       | (l2, false) =>
         ⟨l2, [.txBegin, .script (sortKey v) f, .txCommit], .ledgerFailed (sortKey v)⟩) := by
  simp only [migrateLoop, hg, if_true, hf, he]
  rw [show (parseIntJS v).toIntD = sortKey v from rfl]

theorem setCurrentVersion_spec (n : Int) (t : String) (l : Ledger) :
    (setCurrentVersion n t l = (l, false) ∧ ∃ e ∈ l, e.version = n) ∨
      (setCurrentVersion n t l = (l ++ [⟨n, if t == "" then none else some t⟩], true) ∧
        ∀ e ∈ l, e.version ≠ n) := by
  by_cases h : ∃ e ∈ l, e.version = n
  · exact Or.inl ⟨setCurrentVersion_dup h, h⟩
  · push_neg at h
    exact Or.inr ⟨setCurrentVersion_fresh h, h⟩

/-! ### Characterizations of the apply loop -/

theorem migrateLoop_ok {m : UnitMap} {cur : Int} {target : JSNum} {ek : String → Bool} :
    ∀ {vs : List String} {l : Ledger},
    (∀ v ∈ vs, guardA cur target v = true → ((getUnitD m v).doFile).isSome = true) →
    (∀ v ∈ vs, guardA cur target v = true → ek ((getUnitD m v).doFile.getD "") = true) →
    (∀ v ∈ vs, guardA cur target v = true → ∀ e ∈ l, e.version ≠ sortKey v) →
    ((vs.filter (guardA cur target)).Pairwise (fun a b => sortKey a ≠ sortKey b)) →
    migrateLoop m cur target ek l vs =
      ⟨l ++ (vs.filter (guardA cur target)).map (entryOf m),
       ((vs.filter (guardA cur target)).map (eventsOfA m)).flatten, .ok⟩ := by
  intro vs
  induction vs with
  | nil => intro l _ _ _ _; simp [migrateLoop_nil]
  | cons v rest ih =>
    intro l hdo hex hfresh hnd
    by_cases hg : guardA cur target v = true
    · obtain ⟨f, hf⟩ := Option.isSome_iff_exists.mp (hdo v (List.mem_cons_self _ _) hg)
      have hev : ek f = true := by
        have := hex v (List.mem_cons_self _ _) hg
        rwa [hf, Option.getD_some] at this
      rw [migrateLoop_cons_apply hg hf hev (hfresh v (List.mem_cons_self _ _) hg)]
      have hfilter : (v :: rest).filter (guardA cur target) =
          v :: rest.filter (guardA cur target) := by simp [List.filter_cons, hg]
      have hndrest : (rest.filter (guardA cur target)).Pairwise
          (fun a b => sortKey a ≠ sortKey b) := by
        rw [hfilter] at hnd
        exact (List.pairwise_cons.mp hnd).2
      have hhead : ∀ b ∈ rest.filter (guardA cur target), sortKey v ≠ sortKey b := by
        rw [hfilter] at hnd
        exact (List.pairwise_cons.mp hnd).1
      rw [ih (fun v2 h2 => hdo v2 (List.mem_cons_of_mem _ h2))
        (fun v2 h2 => hex v2 (List.mem_cons_of_mem _ h2))
        (fun v2 h2 hg2 e he => by
          rcases List.mem_append.mp he with hel | hee
          · exact hfresh v2 (List.mem_cons_of_mem _ h2) hg2 e hel
          · rcases List.mem_singleton.mp hee with rfl
            show sortKey v ≠ sortKey v2
            exact hhead v2 (List.mem_filter.mpr ⟨h2, hg2⟩))
        hndrest]
      rw [hfilter]
      simp [List.append_assoc]
    · have hg2 : guardA cur target v = false := by
        cases hb : guardA cur target v
        · rfl
        · exact absurd hb hg
      rw [migrateLoop_cons_skip hg2]
      have hfilter : (v :: rest).filter (guardA cur target) =
          rest.filter (guardA cur target) := by simp [List.filter_cons, hg2]
      rw [hfilter] at hnd
      rw [ih (fun v2 h2 => hdo v2 (List.mem_cons_of_mem _ h2))
        (fun v2 h2 => hex v2 (List.mem_cons_of_mem _ h2))
        (fun v2 h2 => hfresh v2 (List.mem_cons_of_mem _ h2)) hnd]
      rw [hfilter]

theorem migrateLoop_bound {m : UnitMap} {cur : Int} {target : JSNum} {ek : String → Bool} :
    ∀ {vs : List String} {l : Ledger} {n : Int},
    n ∈ executedVersions (migrateLoop m cur target ek l vs).trace →
    ∃ v ∈ vs, guardA cur target v = true ∧ n = sortKey v := by
  intro vs
  induction vs with
  | nil => intro l n h; simp [migrateLoop_nil, executedVersions] at h
  | cons v rest ih =>
    intro l n h
    by_cases hg : guardA cur target v = true
    · rcases hfopt : (getUnitD m v).doFile with _ | f
      · rw [migrateLoop_cons_missing hg hfopt] at h
        simp [executedVersions] at h
      · by_cases he : ek f = true
        · rw [migrateLoop_cons_exec hg hfopt he] at h
          rcases setCurrentVersion_spec (sortKey v) (getUnitD m v).title l with ⟨hsc, _⟩ |
            ⟨hsc, _⟩ <;>
            rw [hsc] at h <;>
            simp only [executedVersions, List.filterMap_cons, List.filterMap_nil] at h
          · rcases List.mem_singleton.mp h with rfl
            exact ⟨v, List.mem_cons_self _ _, hg, rfl⟩
          · rcases List.mem_cons.mp h with rfl | h2
            · exact ⟨v, List.mem_cons_self _ _, hg, rfl⟩
            · have h3 : n ∈ executedVersions
                  (migrateLoop m cur target ek (l ++ [entryOf m v]) rest).trace := h2
              rcases ih h3 with ⟨v2, hv2, hg2, hn2⟩
              exact ⟨v2, List.mem_cons_of_mem _ hv2, hg2, hn2⟩
        · have he2 : ek f = false := by
            cases hb : ek f
            · rfl
            · exact absurd hb he
          rw [migrateLoop_cons_scriptfail hg hfopt he2] at h
          simp only [executedVersions, List.filterMap_cons, List.filterMap_nil] at h
          rcases List.mem_singleton.mp h with rfl
          exact ⟨v, List.mem_cons_self _ _, hg, rfl⟩
    · have hg2 : guardA cur target v = false := by
        cases hb : guardA cur target v
        · rfl
        · exact absurd hb hg
      rw [migrateLoop_cons_skip hg2] at h
      rcases ih h with ⟨v2, hv2, hg3, hn2⟩
      exact ⟨v2, List.mem_cons_of_mem _ hv2, hg3, hn2⟩

theorem migrateLoop_append_ok {m : UnitMap} {cur : Int} {target : JSNum} {ek : String → Bool} :
    ∀ {vs1 : List String} {vs2 : List String} {l l1 : Ledger} {t1 : List Event},
    migrateLoop m cur target ek l vs1 = ⟨l1, t1, .ok⟩ →
    migrateLoop m cur target ek l (vs1 ++ vs2) =
      ⟨(migrateLoop m cur target ek l1 vs2).ledger,
       t1 ++ (migrateLoop m cur target ek l1 vs2).trace,
       (migrateLoop m cur target ek l1 vs2).outcome⟩ := by
  intro vs1
  induction vs1 with
  | nil =>
    intro vs2 l l1 t1 h
    rw [migrateLoop_nil] at h
    injection h with h1 h2 h3
    subst h1
    subst h2
    simp
  | cons v rest ih =>
    intro vs2 l l1 t1 h
    by_cases hg : guardA cur target v = true
    · rcases hfopt : (getUnitD m v).doFile with _ | f
      · rw [migrateLoop_cons_missing hg hfopt] at h
        injection h with h1 h2 h3
        cases h3
      · by_cases he : ek f = true
        · rw [migrateLoop_cons_exec hg hfopt he] at h
          rw [show (v :: rest) ++ vs2 = v :: (rest ++ vs2) from rfl,
            migrateLoop_cons_exec hg hfopt he]
          rcases setCurrentVersion_spec (sortKey v) (getUnitD m v).title l with ⟨hsc, _⟩ |
            ⟨hsc, _⟩ <;> rw [hsc] at h ⊢ <;> dsimp only at h ⊢
          · injection h with h1 h2 h3
            cases h3
          · injection h with h1 h2 h3
            have hr : migrateLoop m cur target ek
                (l ++ [⟨sortKey v, if ((getUnitD m v).title == "") = true then none
                  else some (getUnitD m v).title⟩]) rest =
                ⟨(migrateLoop m cur target ek (l ++ [⟨sortKey v,
                  if ((getUnitD m v).title == "") = true then none
                    else some (getUnitD m v).title⟩]) rest).ledger,
                 (migrateLoop m cur target ek (l ++ [⟨sortKey v,
                  if ((getUnitD m v).title == "") = true then none
                    else some (getUnitD m v).title⟩]) rest).trace, .ok⟩ := by
              rw [← h3]
            rw [ih hr]
            subst h1
            subst h2
            simp
        · have he2 : ek f = false := by
            cases hb : ek f
            · rfl
            · exact absurd hb he
          rw [migrateLoop_cons_scriptfail hg hfopt he2] at h
          injection h with h1 h2 h3
          cases h3
    · have hg2 : guardA cur target v = false := by
        cases hb : guardA cur target v
        · rfl
        · exact absurd hb hg
      rw [migrateLoop_cons_skip hg2] at h
      rw [show (v :: rest) ++ vs2 = v :: (rest ++ vs2) from rfl, migrateLoop_cons_skip hg2]
      exact ih h

theorem migrateLoop_ledger_of_ok {m : UnitMap} {cur : Int} {target : JSNum}
    {ek : String → Bool} : ∀ {vs : List String} {l : Ledger},
    (migrateLoop m cur target ek l vs).outcome = .ok →
    (migrateLoop m cur target ek l vs).ledger =
      l ++ (vs.filter (guardA cur target)).map (entryOf m) := by
  intro vs
  induction vs with
  | nil => intro l _; simp [migrateLoop_nil]
  | cons v rest ih =>
    intro l h
    by_cases hg : guardA cur target v = true
    · rcases hfopt : (getUnitD m v).doFile with _ | f
      · rw [migrateLoop_cons_missing hg hfopt] at h
        cases h
      · by_cases he : ek f = true
        · rw [migrateLoop_cons_exec hg hfopt he] at h ⊢
          rcases setCurrentVersion_spec (sortKey v) (getUnitD m v).title l with ⟨hsc, _⟩ |
            ⟨hsc, _⟩ <;> rw [hsc] at h ⊢ <;> dsimp only at h ⊢
          · cases h
          · rw [ih h]
            simp [List.filter_cons, hg, entryOf]
        · have he2 : ek f = false := by
            cases hb : ek f
            · rfl
            · exact absurd hb he
          rw [migrateLoop_cons_scriptfail hg hfopt he2] at h
          cases h
    · have hg2 : guardA cur target v = false := by
        cases hb : guardA cur target v
        · rfl
        · exact absurd hb hg
      rw [migrateLoop_cons_skip hg2] at h ⊢
      rw [ih h]
      simp [List.filter_cons, hg2]

theorem migrateLoop_nodup {m : UnitMap} {cur : Int} {target : JSNum} {ek : String → Bool} :
    ∀ {vs : List String} {l : Ledger},
    (l.map Entry.version).Nodup →
    (((migrateLoop m cur target ek l vs).ledger).map Entry.version).Nodup := by
  intro vs
  induction vs with
  | nil => intro l h; simpa [migrateLoop_nil] using h
  | cons v rest ih =>
    intro l h
    by_cases hg : guardA cur target v = true
    · rcases hfopt : (getUnitD m v).doFile with _ | f
      · rw [migrateLoop_cons_missing hg hfopt]
        exact h
      · by_cases he : ek f = true
        · rw [migrateLoop_cons_exec hg hfopt he]
          rcases setCurrentVersion_spec (sortKey v) (getUnitD m v).title l with ⟨hsc, _⟩ |
            ⟨hsc, hfresh⟩ <;> rw [hsc] <;> dsimp only
          · exact h
          · apply ih
            rw [List.map_append]
            apply List.Nodup.append h (by simp)
            intro a ha hb
            rcases List.mem_map.mp ha with ⟨e, he2, rfl⟩
            rcases List.mem_map.mp hb with ⟨e2, he3, hv2⟩
            rcases List.mem_singleton.mp he3 with rfl
            exact hfresh e he2 hv2.symm
        · have he2 : ek f = false := by
            cases hb : ek f
            · rfl
            · exact absurd hb he
          rw [migrateLoop_cons_scriptfail hg hfopt he2]
          exact h
    · have hg2 : guardA cur target v = false := by
        cases hb : guardA cur target v
        · rfl
        · exact absurd hb hg
      rw [migrateLoop_cons_skip hg2]
      exact ih h

/-! ### Step equations and characterizations of the revert loop -/

theorem rollbackLoop_nil {m : UnitMap} {cur : Int} {target : JSNum} {ek : String → Bool}
    {l : Ledger} : rollbackLoop m cur target ek l [] = ⟨l, [], .ok⟩ := rfl

theorem rollbackLoop_cons_skip {m : UnitMap} {cur : Int} {target : JSNum} {ek : String → Bool}
    {l : Ledger} {v : String} {rest : List String} (hg : guardR cur target v = false) :
    rollbackLoop m cur target ek l (v :: rest) = rollbackLoop m cur target ek l rest := by
  simp only [rollbackLoop, hg, Bool.false_eq_true, if_false]

theorem rollbackLoop_cons_missing {m : UnitMap} {cur : Int} {target : JSNum}
    {ek : String → Bool} {l : Ledger} {v : String} {rest : List String}
    (hg : guardR cur target v = true) (hf : (getUnitD m v).undoFile = none) :
    rollbackLoop m cur target ek l (v :: rest) = ⟨l, [], .badPath v⟩ := by
  simp only [rollbackLoop, hg, if_true, hf]

theorem rollbackLoop_cons_scriptfail {m : UnitMap} {cur : Int} {target : JSNum}
    {ek : String → Bool} {l : Ledger} {v : String} {rest : List String} {f : String}
    (hg : guardR cur target v = true) (hf : (getUnitD m v).undoFile = some f)
    (he : ek f = false) :
    rollbackLoop m cur target ek l (v :: rest) =
      ⟨l, [.txBegin, .script (sortKey v) f, .txCancel], .scriptFailed f⟩ := by
  simp only [rollbackLoop, hg, if_true, hf, he, Bool.false_eq_true, if_false]
  rfl

theorem rollbackLoop_cons_revert {m : UnitMap} {cur : Int} {target : JSNum} {ek : String → Bool}
    {l : Ledger} {v : String} {rest : List String} {f : String}
    (hg : guardR cur target v = true) (hf : (getUnitD m v).undoFile = some f)
    (he : ek f = true) :
    rollbackLoop m cur target ek l (v :: rest) =
      ⟨(rollbackLoop m cur target ek (l.filter (fun e => !(e.version == sortKey v))) rest).ledger,
       eventsOfR m v ++ (rollbackLoop m cur target ek
         (l.filter (fun e => !(e.version == sortKey v))) rest).trace,
       (rollbackLoop m cur target ek
         (l.filter (fun e => !(e.version == sortKey v))) rest).outcome⟩ := by
  simp only [rollbackLoop, hg, if_true, hf, he]
  rw [show (parseIntJS v).toIntD = sortKey v from rfl]
  simp [eventsOfR, hf]

theorem rollbackLoop_ok {m : UnitMap} {cur : Int} {target : JSNum} {ek : String → Bool} :
    ∀ {vs : List String} {l : Ledger},
    (∀ v ∈ vs, guardR cur target v = true → ((getUnitD m v).undoFile).isSome = true) →
    (∀ v ∈ vs, guardR cur target v = true → ek ((getUnitD m v).undoFile.getD "") = true) →
    rollbackLoop m cur target ek l vs =
      ⟨(vs.filter (guardR cur target)).foldl
         (fun acc v => acc.filter (fun e => !(e.version == sortKey v))) l,
       ((vs.filter (guardR cur target)).map (eventsOfR m)).flatten, .ok⟩ := by
  intro vs
  induction vs with
  | nil => intro l _ _; simp [rollbackLoop_nil]
  | cons v rest ih =>
    intro l hundo hex
    by_cases hg : guardR cur target v = true
    · obtain ⟨f, hf⟩ := Option.isSome_iff_exists.mp (hundo v (List.mem_cons_self _ _) hg)
      have hev : ek f = true := by
        have := hex v (List.mem_cons_self _ _) hg
        rwa [hf, Option.getD_some] at this
      rw [rollbackLoop_cons_revert hg hf hev]
      rw [ih (fun v2 h2 => hundo v2 (List.mem_cons_of_mem _ h2))
        (fun v2 h2 => hex v2 (List.mem_cons_of_mem _ h2))]
      simp [List.filter_cons, hg]
    · have hg2 : guardR cur target v = false := by
        cases hb : guardR cur target v
        · rfl
        · exact absurd hb hg
      rw [rollbackLoop_cons_skip hg2]
      rw [ih (fun v2 h2 => hundo v2 (List.mem_cons_of_mem _ h2))
        (fun v2 h2 => hex v2 (List.mem_cons_of_mem _ h2))]
      simp [List.filter_cons, hg2]

theorem rollbackLoop_bound {m : UnitMap} {cur : Int} {target : JSNum} {ek : String → Bool} :
    ∀ {vs : List String} {l : Ledger} {n : Int},
    n ∈ executedVersions (rollbackLoop m cur target ek l vs).trace →
    ∃ v ∈ vs, guardR cur target v = true ∧ n = sortKey v := by
  intro vs
  induction vs with
  | nil => intro l n h; simp [rollbackLoop_nil, executedVersions] at h
  | cons v rest ih =>
    intro l n h
    by_cases hg : guardR cur target v = true
    · rcases hfopt : (getUnitD m v).undoFile with _ | f
      · rw [rollbackLoop_cons_missing hg hfopt] at h
        simp [executedVersions] at h
      · by_cases he : ek f = true
        · rw [rollbackLoop_cons_revert hg hfopt he] at h
          simp only [eventsOfR, executedVersions, List.cons_append, List.nil_append,
            List.filterMap_cons] at h
          rcases List.mem_cons.mp h with rfl | h2
          · exact ⟨v, List.mem_cons_self _ _, hg, rfl⟩
          · have h3 : n ∈ executedVersions (rollbackLoop m cur target ek
                (l.filter (fun e => !(e.version == sortKey v))) rest).trace := h2
            rcases ih h3 with ⟨v2, hv2, hg2, hn2⟩
            exact ⟨v2, List.mem_cons_of_mem _ hv2, hg2, hn2⟩
        · have he2 : ek f = false := by
            cases hb : ek f
            · rfl
            · exact absurd hb he
          rw [rollbackLoop_cons_scriptfail hg hfopt he2] at h
          simp only [executedVersions, List.filterMap_cons, List.filterMap_nil] at h
          rcases List.mem_singleton.mp h with rfl
          exact ⟨v, List.mem_cons_self _ _, hg, rfl⟩
    · have hg2 : guardR cur target v = false := by
        cases hb : guardR cur target v
        · rfl
        · exact absurd hb hg
      rw [rollbackLoop_cons_skip hg2] at h
      rcases ih h with ⟨v2, hv2, hg3, hn2⟩
      exact ⟨v2, List.mem_cons_of_mem _ hv2, hg3, hn2⟩

theorem rollbackLoop_nodup {m : UnitMap} {cur : Int} {target : JSNum} {ek : String → Bool} :
    ∀ {vs : List String} {l : Ledger},
    (l.map Entry.version).Nodup →
    (((rollbackLoop m cur target ek l vs).ledger).map Entry.version).Nodup := by
  intro vs
  induction vs with
  | nil => intro l h; simpa [rollbackLoop_nil] using h
  | cons v rest ih =>
    intro l h
    by_cases hg : guardR cur target v = true
    · rcases hfopt : (getUnitD m v).undoFile with _ | f
      · rw [rollbackLoop_cons_missing hg hfopt]
        exact h
      · by_cases he : ek f = true
        · rw [rollbackLoop_cons_revert hg hfopt he]
          apply ih
          exact List.Nodup.sublist ((l.filter_sublist).map Entry.version) h
        · have he2 : ek f = false := by
            cases hb : ek f
            · rfl
            · exact absurd hb he
          rw [rollbackLoop_cons_scriptfail hg hfopt he2]
          exact h
    · have hg2 : guardR cur target v = false := by
        cases hb : guardR cur target v
        · rfl
        · exact absurd hb hg
      rw [rollbackLoop_cons_skip hg2]
      exact ih h

/-! ### Unfolding the command bodies -/

theorem migrateCore_some {m : UnitMap} {tv : String} {l : Ledger} {ro : Bool}
    {ek : String → Bool} {t : Int} (hp : parseIntJS tv = .int t) (h0 : tv ≠ "") :
    migrateCore m (some tv) l ro ek =
      if t < getCurrentVersion l ro then ⟨l, [], .warnDirection⟩
      else if t = getCurrentVersion l ro then ⟨l, [], .upToDate⟩
      else migrateLoop m (getCurrentVersion l ro) (.int t) ek l
        (List.insertionSort ascOrder (objectKeys m)) := by
  have h1 : (tv == "") = false := beq_eq_false_iff_ne.mpr h0
  simp only [migrateCore, h1, Bool.false_eq_true, if_false, hp, JSNum.ltB, JSNum.seqB,
    beq_iff_eq, decide_eq_true_eq]

theorem rollbackCore_some {m : UnitMap} {tv : String} {l : Ledger} {ro : Bool}
    {ek : String → Bool} {t : Int} (hp : parseIntJS tv = .int t) (h0 : tv ≠ "") :
    rollbackCore m (some tv) l ro ek =
      if getCurrentVersion l ro ≤ t then ⟨l, [], .warnDirection⟩
      else rollbackLoop m (getCurrentVersion l ro) (.int t) ek l
        (List.insertionSort descOrder (objectKeys m)) := by
  have h1 : (tv == "") = false := beq_eq_false_iff_ne.mpr h0
  simp only [rollbackCore, h1, Bool.false_eq_true, if_false, hp, JSNum.geB, JSNum.leB,
    decide_eq_true_eq]

theorem rollbackCore_none {m : UnitMap} {l : Ledger} {ro : Bool} {ek : String → Bool} :
    rollbackCore m none l ro ek =
      rollbackLoop m (getCurrentVersion l ro) (.int (getCurrentVersion l ro - 1)) ek l
        (List.insertionSort descOrder (objectKeys m)) := by
  have : JSNum.geB (.int (getCurrentVersion l ro - 1)) (.int (getCurrentVersion l ro)) =
      false := by
    simp [JSNum.geB, JSNum.leB]
  simp only [rollbackCore, this, Bool.false_eq_true, if_false]

/-! ### Executed versions of event traces -/

theorem executedVersions_append (t1 t2 : List Event) :
    executedVersions (t1 ++ t2) = executedVersions t1 ++ executedVersions t2 :=
  List.filterMap_append t1 t2 _

theorem executedVersions_eventsOfA (m : UnitMap) (v : String) :
    executedVersions (eventsOfA m v) = [sortKey v] := by
  simp [eventsOfA, executedVersions]

theorem executedVersions_eventsOfR (m : UnitMap) (v : String) :
    executedVersions (eventsOfR m v) = [sortKey v] := by
  simp [eventsOfR, executedVersions]

theorem executedVersions_flattenA (m : UnitMap) :
    ∀ vs : List String, executedVersions ((vs.map (eventsOfA m)).flatten) = vs.map sortKey := by
  intro vs
  induction vs with
  | nil => simp [executedVersions]
  | cons v rest ih =>
    simp only [List.map_cons, List.flatten_cons, executedVersions_append,
      executedVersions_eventsOfA, ih]
    rfl

theorem executedVersions_flattenR (m : UnitMap) :
    ∀ vs : List String, executedVersions ((vs.map (eventsOfR m)).flatten) = vs.map sortKey := by
  intro vs
  induction vs with
  | nil => simp [executedVersions]
  | cons v rest ih =>
    simp only [List.map_cons, List.flatten_cons, executedVersions_append,
      executedVersions_eventsOfR, ih]
    rfl

/-! ### Distinct parsed keys -/

theorem keysNodup_of {m : UnitMap} (hnd : (m.map (fun p => sortKey p.1)).Nodup) :
    (m.map (fun p => p.1)).Nodup := by
  have h2 : m.map (fun p => sortKey p.1) = (m.map (fun p => p.1)).map sortKey := by
    simp [List.map_map]
  rw [h2] at hnd
  exact hnd.of_map sortKey

theorem versionsAsc_sortKey_nodup {m : UnitMap} (hnd : (m.map (fun p => sortKey p.1)).Nodup) :
    ((List.insertionSort ascOrder (objectKeys m)).map sortKey).Nodup := by
  have hperm := (versionsAsc_perm m).map sortKey
  rw [List.map_map] at hperm
  exact hperm.nodup_iff.mpr hnd

theorem versionsDesc_sortKey_nodup {m : UnitMap} (hnd : (m.map (fun p => sortKey p.1)).Nodup) :
    ((List.insertionSort descOrder (objectKeys m)).map sortKey).Nodup := by
  have hperm := (versionsDesc_perm m).map sortKey
  rw [List.map_map] at hperm
  exact hperm.nodup_iff.mpr hnd

/-! ### Executed versions of a whole apply / revert invocation -/

theorem migrateCore_exec_versions {m : UnitMap} {tv : String} {l : Ledger} {ro : Bool}
    {ek : String → Bool} {t c : Int}
    (hp : parseIntJS tv = .int t) (h0 : tv ≠ "")
    (hc : getCurrentVersion l ro = c)
    (hnd : (m.map (fun p => sortKey p.1)).Nodup)
    (hdo : ∀ p ∈ m, c < sortKey p.1 → sortKey p.1 ≤ t → (p.2.doFile).isSome = true)
    (hex : ∀ p ∈ m, c < sortKey p.1 → sortKey p.1 ≤ t → ek (p.2.doFile.getD "") = true)
    (hfresh : ∀ e ∈ l, ¬(c < e.version ∧ e.version ≤ t)) :
    executedVersions (migrateCore m (some tv) l ro ek).trace =
      ((List.insertionSort ascOrder (objectKeys m)).filter (guardA c (.int t))).map sortKey ∧
    (migrateCore m (some tv) l ro ek).outcome =
      (if t < c then .warnDirection else if t = c then .upToDate else .ok) := by
  rw [migrateCore_some hp h0, hc]
  rcases lt_trichotomy t c with hlt | heq | hgt
  · rw [if_pos hlt]
    constructor
    · have hga : ∀ v, guardA c (.int t) v = false := by
        intro v
        cases hb : guardA c (.int t) v
        · rfl
        · rcases guardA_int_iff.mp hb with ⟨n, _, h2, h3⟩
          omega
      have hfil : (List.insertionSort ascOrder (objectKeys m)).filter (guardA c (.int t)) =
          [] := by
        rw [List.filter_eq_nil_iff]
        intro a _
        simp [hga a]
      rw [hfil]
      simp [executedVersions]
    · simp [hlt]
  · rw [if_neg (by omega), if_pos heq]
    constructor
    · have hga : ∀ v, guardA c (.int t) v = false := by
        intro v
        cases hb : guardA c (.int t) v
        · rfl
        · rcases guardA_int_iff.mp hb with ⟨n, _, h2, h3⟩
          omega
      have hfil : (List.insertionSort ascOrder (objectKeys m)).filter (guardA c (.int t)) =
          [] := by
        rw [List.filter_eq_nil_iff]
        intro a _
        simp [hga a]
      rw [hfil]
      simp [executedVersions]
    · simp [heq, show ¬(t < c) by omega]
  · rw [if_neg (by omega), if_neg (by omega)]
    have hkeysN := keysNodup_of hnd
    have hdo2 : ∀ v ∈ List.insertionSort ascOrder (objectKeys m),
        guardA c (.int t) v = true → ((getUnitD m v).doFile).isSome = true := by
      intro v hv hg
      rcases mem_versionsAsc.mp hv with ⟨u, hu⟩
      rcases guardA_int_iff.mp hg with ⟨n, hpn, h2, h3⟩
      rw [getUnitD_eq_of_mem hkeysN hu]
      exact hdo (v, u) hu (by rw [sortKey_of_parse hpn]; exact h2)
        (by rw [sortKey_of_parse hpn]; exact h3)
    have hex2 : ∀ v ∈ List.insertionSort ascOrder (objectKeys m),
        guardA c (.int t) v = true → ek ((getUnitD m v).doFile.getD "") = true := by
      intro v hv hg
      rcases mem_versionsAsc.mp hv with ⟨u, hu⟩
      rcases guardA_int_iff.mp hg with ⟨n, hpn, h2, h3⟩
      rw [getUnitD_eq_of_mem hkeysN hu]
      exact hex (v, u) hu (by rw [sortKey_of_parse hpn]; exact h2)
        (by rw [sortKey_of_parse hpn]; exact h3)
    have hfresh2 : ∀ v ∈ List.insertionSort ascOrder (objectKeys m),
        guardA c (.int t) v = true → ∀ e ∈ l, e.version ≠ sortKey v := by
      intro v _ hg e he hEq
      rcases guardA_int_iff.mp hg with ⟨n, hpn, h2, h3⟩
      rw [sortKey_of_parse hpn] at hEq
      exact hfresh e he (by rw [hEq]; exact ⟨h2, h3⟩)
    have hnd2 : ((List.insertionSort ascOrder (objectKeys m)).filter
        (guardA c (.int t))).Pairwise (fun a b => sortKey a ≠ sortKey b) := by
      have h4 : (List.insertionSort ascOrder (objectKeys m)).Pairwise
          (fun a b => sortKey a ≠ sortKey b) :=
        List.pairwise_map.mp (versionsAsc_sortKey_nodup hnd)
      exact h4.sublist (List.filter_sublist _)
    rw [migrateLoop_ok hdo2 hex2 hfresh2 hnd2]
    exact ⟨executedVersions_flattenA m _, by rw [if_neg (by omega), if_neg (by omega)]⟩

theorem rollbackCore_exec_versions {m : UnitMap} {tv : String} {l : Ledger} {ro : Bool}
    {ek : String → Bool} {t c : Int}
    (hp : parseIntJS tv = .int t) (h0 : tv ≠ "")
    (hc : getCurrentVersion l ro = c)
    (hnd : (m.map (fun p => sortKey p.1)).Nodup)
    (hundo : ∀ p ∈ m, t < sortKey p.1 → sortKey p.1 ≤ c → (p.2.undoFile).isSome = true)
    (hex : ∀ p ∈ m, t < sortKey p.1 → sortKey p.1 ≤ c → ek (p.2.undoFile.getD "") = true) :
    executedVersions (rollbackCore m (some tv) l ro ek).trace =
      ((List.insertionSort descOrder (objectKeys m)).filter (guardR c (.int t))).map sortKey ∧
    (rollbackCore m (some tv) l ro ek).outcome =
      (if c ≤ t then .warnDirection else .ok) := by
  rw [rollbackCore_some hp h0, hc]
  by_cases hge : c ≤ t
  · rw [if_pos hge]
    constructor
    · have hga : ∀ v, guardR c (.int t) v = false := by
        intro v
        cases hb : guardR c (.int t) v
        · rfl
        · rcases guardR_int_iff.mp hb with ⟨n, _, h2, h3⟩
          omega
      have hfil : (List.insertionSort descOrder (objectKeys m)).filter (guardR c (.int t)) =
          [] := by
        rw [List.filter_eq_nil_iff]
        intro a _
        simp [hga a]
      rw [hfil]
      simp [executedVersions]
    · simp [hge]
  · rw [if_neg hge]
    have hkeysN := keysNodup_of hnd
    have hundo2 : ∀ v ∈ List.insertionSort descOrder (objectKeys m),
        guardR c (.int t) v = true → ((getUnitD m v).undoFile).isSome = true := by
      intro v hv hg
      rcases mem_versionsDesc.mp hv with ⟨u, hu⟩
      rcases guardR_int_iff.mp hg with ⟨n, hpn, h2, h3⟩
      rw [getUnitD_eq_of_mem hkeysN hu]
      exact hundo (v, u) hu (by rw [sortKey_of_parse hpn]; exact h2)
        (by rw [sortKey_of_parse hpn]; exact h3)
    have hex2 : ∀ v ∈ List.insertionSort descOrder (objectKeys m),
        guardR c (.int t) v = true → ek ((getUnitD m v).undoFile.getD "") = true := by
      intro v hv hg
      rcases mem_versionsDesc.mp hv with ⟨u, hu⟩
      rcases guardR_int_iff.mp hg with ⟨n, hpn, h2, h3⟩
      rw [getUnitD_eq_of_mem hkeysN hu]
      exact hex (v, u) hu (by rw [sortKey_of_parse hpn]; exact h2)
        (by rw [sortKey_of_parse hpn]; exact h3)
    rw [rollbackLoop_ok hundo2 hex2]
    exact ⟨executedVersions_flattenR m _, by rw [if_neg hge]⟩

/-! ### Uniqueness of ledger versions is preserved by whole invocations -/

theorem migrateCore_nodup {m : UnitMap} {tv : Option String} {l : Ledger} {ro : Bool}
    {ek : String → Bool} (h : (l.map Entry.version).Nodup) :
    (((migrateCore m tv l ro ek).ledger).map Entry.version).Nodup := by
  cases tv with
  | none =>
    simp only [migrateCore]
    generalize jsMax (List.map parseIntJS (List.insertionSort ascOrder (objectKeys m))) = tgt
    cases h1 : tgt.ltB (JSNum.int (getCurrentVersion l ro))
    · simp only [Bool.false_eq_true, if_false]
      cases h2 : tgt.seqB (JSNum.int (getCurrentVersion l ro))
      · simp only [Bool.false_eq_true, if_false]
        exact migrateLoop_nodup h
      · simp only [if_true]
        exact h
    · simp only [if_true]
      exact h
  | some s =>
    simp only [migrateCore]
    generalize (if (s == "") = true then
      jsMax (List.map parseIntJS (List.insertionSort ascOrder (objectKeys m)))
      else parseIntJS s) = tgt
    cases h1 : tgt.ltB (JSNum.int (getCurrentVersion l ro))
    · simp only [Bool.false_eq_true, if_false]
      cases h2 : tgt.seqB (JSNum.int (getCurrentVersion l ro))
      · simp only [Bool.false_eq_true, if_false]
        exact migrateLoop_nodup h
      · simp only [if_true]
        exact h
    · simp only [if_true]
      exact h

theorem rollbackCore_nodup {m : UnitMap} {tv : Option String} {l : Ledger} {ro : Bool}
    {ek : String → Bool} (h : (l.map Entry.version).Nodup) :
    (((rollbackCore m tv l ro ek).ledger).map Entry.version).Nodup := by
  cases tv with
  | none =>
    simp only [rollbackCore]
    cases h1 : JSNum.geB (JSNum.int (getCurrentVersion l ro - 1))
        (JSNum.int (getCurrentVersion l ro))
    · simp only [Bool.false_eq_true, if_false]
      exact rollbackLoop_nodup h
    · simp only [if_true]
      exact h
  | some s =>
    simp only [rollbackCore]
    generalize (if (s == "") = true then JSNum.int (getCurrentVersion l ro - 1)
      else parseIntJS s) = tgt
    cases h1 : tgt.geB (JSNum.int (getCurrentVersion l ro))
    · simp only [Bool.false_eq_true, if_false]
      exact rollbackLoop_nodup h
    · simp only [if_true]
      exact h

/-! ### Membership and ordering of the executed version set -/

theorem mem_exec_filterA_iff {m : UnitMap} {c t n : Int} :
    n ∈ ((List.insertionSort ascOrder (objectKeys m)).filter (guardA c (.int t))).map sortKey ↔
      (∃ p ∈ m, parseIntJS p.1 = JSNum.int n) ∧ c < n ∧ n ≤ t := by
  constructor
  · intro h
    rcases List.mem_map.mp h with ⟨v, hvf, rfl⟩
    rcases List.mem_filter.mp hvf with ⟨hv, hg⟩
    rcases guardA_int_iff.mp hg with ⟨n2, hpn, h2, h3⟩
    rcases mem_versionsAsc.mp hv with ⟨u, hu⟩
    rw [sortKey_of_parse hpn]
    exact ⟨⟨(v, u), hu, hpn⟩, h2, h3⟩
  · rintro ⟨⟨p, hp, hparse⟩, h2, h3⟩
    apply List.mem_map.mpr
    exact ⟨p.1, List.mem_filter.mpr ⟨mem_versionsAsc.mpr ⟨p.2, hp⟩,
      guardA_int_iff.mpr ⟨n, hparse, h2, h3⟩⟩, sortKey_of_parse hparse⟩

theorem mem_exec_filterR_iff {m : UnitMap} {c t n : Int} :
    n ∈ ((List.insertionSort descOrder (objectKeys m)).filter (guardR c (.int t))).map sortKey ↔
      (∃ p ∈ m, parseIntJS p.1 = JSNum.int n) ∧ t < n ∧ n ≤ c := by
  constructor
  · intro h
    rcases List.mem_map.mp h with ⟨v, hvf, rfl⟩
    rcases List.mem_filter.mp hvf with ⟨hv, hg⟩
    rcases guardR_int_iff.mp hg with ⟨n2, hpn, h2, h3⟩
    rcases mem_versionsDesc.mp hv with ⟨u, hu⟩
    rw [sortKey_of_parse hpn]
    exact ⟨⟨(v, u), hu, hpn⟩, h2, h3⟩
  · rintro ⟨⟨p, hp, hparse⟩, h2, h3⟩
    apply List.mem_map.mpr
    exact ⟨p.1, List.mem_filter.mpr ⟨mem_versionsDesc.mpr ⟨p.2, hp⟩,
      guardR_int_iff.mpr ⟨n, hparse, h2, h3⟩⟩, sortKey_of_parse hparse⟩

theorem sorted_exec_filterA {m : UnitMap} (hnd : (m.map (fun p => sortKey p.1)).Nodup)
    (c t : Int) :
    List.Sorted (fun a b : Int => a < b)
      (((List.insertionSort ascOrder (objectKeys m)).filter (guardA c (.int t))).map
        sortKey) := by
  have hp1 : ((List.insertionSort ascOrder (objectKeys m)).filter
      (guardA c (.int t))).Pairwise ascOrder :=
    (List.sorted_insertionSort ascOrder (objectKeys m)).sublist (List.filter_sublist _)
  have hp2 : ((List.insertionSort ascOrder (objectKeys m)).filter
      (guardA c (.int t))).Pairwise (fun a b => sortKey a ≠ sortKey b) :=
    (List.pairwise_map.mp (versionsAsc_sortKey_nodup hnd)).sublist (List.filter_sublist _)
  show List.Pairwise _ _
  rw [List.pairwise_map]
  exact (hp1.and hp2).imp (fun h => lt_of_le_of_ne h.1 h.2)

theorem sorted_exec_filterR {m : UnitMap} (hnd : (m.map (fun p => sortKey p.1)).Nodup)
    (c t : Int) :
    List.Sorted (fun a b : Int => b < a)
      (((List.insertionSort descOrder (objectKeys m)).filter (guardR c (.int t))).map
        sortKey) := by
  have hp1 : ((List.insertionSort descOrder (objectKeys m)).filter
      (guardR c (.int t))).Pairwise descOrder :=
    (List.sorted_insertionSort descOrder (objectKeys m)).sublist (List.filter_sublist _)
  have hp2 : ((List.insertionSort descOrder (objectKeys m)).filter
      (guardR c (.int t))).Pairwise (fun a b => sortKey a ≠ sortKey b) :=
    (List.pairwise_map.mp (versionsDesc_sortKey_nodup hnd)).sublist (List.filter_sublist _)
  show List.Pairwise _ _
  rw [List.pairwise_map]
  exact (hp1.and hp2).imp (fun h => lt_of_le_of_ne h.1 (h.2.symm))

/-! ### The top ledger entry and singleton plans -/

theorem ledgerTop_mem : ∀ {l : Ledger} {t : Entry}, ledgerTop l = some t → t ∈ l := by
  intro l
  induction l with
  | nil => intro t ht; cases ht
  | cons a as ih =>
    intro t ht
    simp only [ledgerTop] at ht
    rcases has : ledgerTop as with _ | m <;> rw [has] at ht <;> dsimp only at ht
    · injection ht with h1
      subst h1
      exact List.mem_cons_self _ _
    · by_cases hv : m.version > a.version
      · rw [if_pos hv] at ht
        injection ht with h1
        subst h1
        exact List.mem_cons_of_mem _ (ih has)
      · rw [if_neg hv] at ht
        injection ht with h1
        subst h1
        exact List.mem_cons_self _ _

theorem getCurrentVersion_eq_of {l : Ledger} {T : Int} (hmem : ∃ e ∈ l, e.version = T)
    (hbound : ∀ e ∈ l, e.version ≤ T) : getCurrentVersion l true = T := by
  rcases hmem with ⟨e, he, hv⟩
  have hne : l ≠ [] := by rintro rfl; cases he
  rcases Option.isSome_iff_exists.mp (ledgerTop_isSome hne) with ⟨t, ht⟩
  have h1 : e.version ≤ t.version := ledgerTop_le he ht
  have h2 : t.version ≤ T := hbound t (ledgerTop_mem ht)
  unfold getCurrentVersion
  rw [if_pos rfl, ht]
  show t.version = T
  omega

theorem filter_eq_singleton {α : Type} {l : List α} {p : α → Bool} {a : α} (hnd : l.Nodup)
    (ha : a ∈ l) (hpa : p a = true) (huniq : ∀ b ∈ l, p b = true → b = a) :
    l.filter p = [a] := by
  induction l with
  | nil => cases ha
  | cons x xs ih =>
    rcases List.mem_cons.mp ha with rfl | hmem
    · rw [List.filter_cons_of_pos hpa]
      have hnil : xs.filter p = [] := by
        rw [List.filter_eq_nil_iff]
        intro b hb hpb
        rcases huniq b (List.mem_cons_of_mem _ hb) hpb with rfl
        exact (List.nodup_cons.mp hnd).1 hb
      rw [hnil]
    · have hpx : p x = false := by
        cases hb : p x
        · rfl
        · rcases huniq x (List.mem_cons_self _ _) hb with rfl
          exact absurd hmem (List.nodup_cons.mp hnd).1
      rw [List.filter_cons_of_neg (by simp [hpx])]
      exact ih (List.nodup_cons.mp hnd).2 hmem
        (fun b hb hpb => huniq b (List.mem_cons_of_mem _ hb) hpb)

theorem versionsAsc_nodup {m : UnitMap} (hnd : (m.map (fun p => sortKey p.1)).Nodup) :
    (List.insertionSort ascOrder (objectKeys m)).Nodup :=
  (versionsAsc_perm m).nodup_iff.mpr (keysNodup_of hnd)

theorem versionsDesc_nodup {m : UnitMap} (hnd : (m.map (fun p => sortKey p.1)).Nodup) :
    (List.insertionSort descOrder (objectKeys m)).Nodup :=
  (versionsDesc_perm m).nodup_iff.mpr (keysNodup_of hnd)

theorem entryOf_version_map (m : UnitMap) (L : List String) :
    ((L.map (entryOf m)).map Entry.version) = L.map sortKey := by
  rw [List.map_map]
  rfl

/-! ### The claims -/

/-- C1: over any unit mapping with distinct integer version keys, current
ledger version `c` and integer targets: the apply run executes exactly the
versions with `c < v ≤ tA`, in strictly ascending order, and the revert run
executes exactly the versions with `tR < v ≤ c`, in strictly descending order;
and — for every script oracle, i.e. also under mid-run failures — no executed
version ever lies outside those bounds. -/
theorem spec_c1
    (m : UnitMap) (l : Ledger) (ek : String → Bool) (tvA tvR : String) (tA tR c : Int)
    (hpA : parseIntJS tvA = JSNum.int tA) (h0A : tvA ≠ "")
    (hpR : parseIntJS tvR = JSNum.int tR) (h0R : tvR ≠ "")
    (hnd : (m.map (fun p => sortKey p.1)).Nodup)
    (hc : getCurrentVersion l true = c)
    (hdo : ∀ p ∈ m, c < sortKey p.1 → sortKey p.1 ≤ tA → (p.2.doFile).isSome = true)
    (hexA : ∀ p ∈ m, c < sortKey p.1 → sortKey p.1 ≤ tA → ek (p.2.doFile.getD "") = true)
    (hundo : ∀ p ∈ m, tR < sortKey p.1 → sortKey p.1 ≤ c → (p.2.undoFile).isSome = true)
    (hexR : ∀ p ∈ m, tR < sortKey p.1 → sortKey p.1 ≤ c → ek (p.2.undoFile.getD "") = true) :
    (∀ ek2 : String → Bool,
      ∀ n ∈ executedVersions (migrateCore m (some tvA) l true ek2).trace, c < n ∧ n ≤ tA) ∧
    (∀ ek2 : String → Bool,
      ∀ n ∈ executedVersions (rollbackCore m (some tvR) l true ek2).trace, tR < n ∧ n ≤ c) ∧
    List.Sorted (fun a b : Int => a < b)
      (executedVersions (migrateCore m (some tvA) l true ek).trace) ∧
    (∀ n : Int, n ∈ executedVersions (migrateCore m (some tvA) l true ek).trace ↔
      ((∃ p ∈ m, parseIntJS p.1 = JSNum.int n) ∧ c < n ∧ n ≤ tA)) ∧
    List.Sorted (fun a b : Int => b < a)
      (executedVersions (rollbackCore m (some tvR) l true ek).trace) ∧
    (∀ n : Int, n ∈ executedVersions (rollbackCore m (some tvR) l true ek).trace ↔
      ((∃ p ∈ m, parseIntJS p.1 = JSNum.int n) ∧ tR < n ∧ n ≤ c)) := by
  have hfreshA : ∀ e ∈ l, ¬(c < e.version ∧ e.version ≤ tA) := by
    intro e he hcon
    have hle := version_le_getCurrentVersion he
    rw [hc] at hle
    omega
  obtain ⟨htraceA, _⟩ := migrateCore_exec_versions hpA h0A hc hnd hdo hexA hfreshA
  obtain ⟨htraceR, _⟩ := rollbackCore_exec_versions hpR h0R hc hnd hundo hexR
  refine ⟨?_, ?_, ?_, ?_, ?_, ?_⟩
  · intro ek2 n hn
    rw [migrateCore_some hpA h0A, hc] at hn
    by_cases h1 : tA < c
    · rw [if_pos h1] at hn
      simp [executedVersions] at hn
    · rw [if_neg h1] at hn
      by_cases h2 : tA = c
      · rw [if_pos h2] at hn
        simp [executedVersions] at hn
      · rw [if_neg h2] at hn
        rcases migrateLoop_bound hn with ⟨v, _, hg, rfl⟩
        rcases guardA_int_iff.mp hg with ⟨n2, hpn, hb1, hb2⟩
        rw [sortKey_of_parse hpn]
        exact ⟨hb1, hb2⟩
  · intro ek2 n hn
    rw [rollbackCore_some hpR h0R, hc] at hn
    by_cases h1 : c ≤ tR
    · rw [if_pos h1] at hn
      simp [executedVersions] at hn
    · rw [if_neg h1] at hn
      rcases rollbackLoop_bound hn with ⟨v, _, hg, rfl⟩
      rcases guardR_int_iff.mp hg with ⟨n2, hpn, hb1, hb2⟩
      rw [sortKey_of_parse hpn]
      exact ⟨hb1, hb2⟩
  · rw [htraceA]
    exact sorted_exec_filterA hnd c tA
  · intro n
    rw [htraceA]
    exact mem_exec_filterA_iff
  · rw [htraceR]
    exact sorted_exec_filterR hnd c tR
  · intro n
    rw [htraceR]
    exact mem_exec_filterR_iff

/-- C1 witness: units {1,2,3,5} with both scripts, ledger at version 2; apply
to 5 executes exactly {3,5} ascending, revert to 0 executes exactly {1,2}
descending. -/
theorem spec_c1_witness :
    (getCurrentVersion [⟨1, none⟩, ⟨2, none⟩] true = 2) ∧
    (∀ n : Int, n ∈ executedVersions (migrateCore
        [("1", ⟨"a", some "1.do.a.surql", some "1.undo.a.surql"⟩),
         ("2", ⟨"b", some "2.do.b.surql", some "2.undo.b.surql"⟩),
         ("3", ⟨"c", some "3.do.c.surql", some "3.undo.c.surql"⟩),
         ("5", ⟨"d", some "5.do.d.surql", some "5.undo.d.surql"⟩)]
        (some "5") [⟨1, none⟩, ⟨2, none⟩] true (fun _ => true)).trace ↔
      ((∃ p ∈ [("1", (⟨"a", some "1.do.a.surql", some "1.undo.a.surql"⟩ : MigUnit)),
         ("2", ⟨"b", some "2.do.b.surql", some "2.undo.b.surql"⟩),
         ("3", ⟨"c", some "3.do.c.surql", some "3.undo.c.surql"⟩),
         ("5", ⟨"d", some "5.do.d.surql", some "5.undo.d.surql"⟩)],
          parseIntJS p.1 = JSNum.int n) ∧ 2 < n ∧ n ≤ 5)) ∧
    (∀ n : Int, n ∈ executedVersions (rollbackCore
        [("1", ⟨"a", some "1.do.a.surql", some "1.undo.a.surql"⟩),
         ("2", ⟨"b", some "2.do.b.surql", some "2.undo.b.surql"⟩),
         ("3", ⟨"c", some "3.do.c.surql", some "3.undo.c.surql"⟩),
         ("5", ⟨"d", some "5.do.d.surql", some "5.undo.d.surql"⟩)]
        (some "0") [⟨1, none⟩, ⟨2, none⟩] true (fun _ => true)).trace ↔
      ((∃ p ∈ [("1", (⟨"a", some "1.do.a.surql", some "1.undo.a.surql"⟩ : MigUnit)),
         ("2", ⟨"b", some "2.do.b.surql", some "2.undo.b.surql"⟩),
         ("3", ⟨"c", some "3.do.c.surql", some "3.undo.c.surql"⟩),
         ("5", ⟨"d", some "5.do.d.surql", some "5.undo.d.surql"⟩)],
          parseIntJS p.1 = JSNum.int n) ∧ 0 < n ∧ n ≤ 2)) :=
  ⟨by decide,
   (spec_c1
     [("1", ⟨"a", some "1.do.a.surql", some "1.undo.a.surql"⟩),
      ("2", ⟨"b", some "2.do.b.surql", some "2.undo.b.surql"⟩),
      ("3", ⟨"c", some "3.do.c.surql", some "3.undo.c.surql"⟩),
      ("5", ⟨"d", some "5.do.d.surql", some "5.undo.d.surql"⟩)]
     [⟨1, none⟩, ⟨2, none⟩] (fun _ => true) "5" "0" 5 0 2
     (by decide) (by decide) (by decide) (by decide) (by decide) (by decide)
     (by decide) (by decide) (by decide) (by decide)).2.2.2.1,
   (spec_c1
     [("1", ⟨"a", some "1.do.a.surql", some "1.undo.a.surql"⟩),
      ("2", ⟨"b", some "2.do.b.surql", some "2.undo.b.surql"⟩),
      ("3", ⟨"c", some "3.do.c.surql", some "3.undo.c.surql"⟩),
      ("5", ⟨"d", some "5.do.d.surql", some "5.undo.d.surql"⟩)]
     [⟨1, none⟩, ⟨2, none⟩] (fun _ => true) "5" "0" 5 0 2
     (by decide) (by decide) (by decide) (by decide) (by decide) (by decide)
     (by decide) (by decide) (by decide) (by decide)).2.2.2.2.2⟩

/-- C2: when the script of the unit `vf` fails mid-run, its transaction is
cancelled (the trace ends with `txCancel`), the run stops immediately (nothing
follows), the ledger is not updated for the failed unit, the outcome names the
failing unit's script file, and every earlier unit of the run keeps its new
ledger entry (`l ++` the entries of the applied plan segment before `vf`). -/
theorem spec_c2
    (m : UnitMap) (l : Ledger) (ek : String → Bool) (tv : String) (t c : Int)
    (vs1 : List String) (vf : String) (vs2 : List String) (f : String)
    (hp : parseIntJS tv = JSNum.int t) (h0 : tv ≠ "")
    (hnd : (m.map (fun p => sortKey p.1)).Nodup)
    (hc : getCurrentVersion l true = c)
    (hsplit : List.insertionSort ascOrder (objectKeys m) = vs1 ++ vf :: vs2)
    (hgf : guardA c (.int t) vf = true)
    (hdo1 : ∀ v ∈ vs1, guardA c (.int t) v = true → ((getUnitD m v).doFile).isSome = true)
    (hex1 : ∀ v ∈ vs1, guardA c (.int t) v = true → ek ((getUnitD m v).doFile.getD "") = true)
    (hff : (getUnitD m vf).doFile = some f)
    (hef : ek f = false) :
    migrateCore m (some tv) l true ek =
      ⟨l ++ (vs1.filter (guardA c (.int t))).map (entryOf m),
       ((vs1.filter (guardA c (.int t))).map (eventsOfA m)).flatten ++
         [.txBegin, .script (sortKey vf) f, .txCancel],
       .scriptFailed f⟩ := by
  rcases guardA_int_iff.mp hgf with ⟨nf, hpnf, hb1, hb2⟩
  have hct : c < t := lt_of_lt_of_le hb1 hb2
  rw [migrateCore_some hp h0, hc, if_neg (by omega), if_neg (by omega), hsplit]
  have hfresh1 : ∀ v ∈ vs1, guardA c (.int t) v = true → ∀ e ∈ l, e.version ≠ sortKey v := by
    intro v _ hg e he hEq
    rcases guardA_int_iff.mp hg with ⟨n2, hpn, h2, h3⟩
    rw [sortKey_of_parse hpn] at hEq
    have hle := version_le_getCurrentVersion he
    rw [hc] at hle
    omega
  have hnd1 : (vs1.filter (guardA c (.int t))).Pairwise (fun a b => sortKey a ≠ sortKey b) := by
    have hvnd := versionsAsc_sortKey_nodup hnd
    rw [hsplit] at hvnd
    exact ((List.pairwise_map.mp hvnd).sublist
      ((List.filter_sublist vs1).trans (List.sublist_append_left vs1 _)))
  have hpre := migrateLoop_ok hdo1 hex1 hfresh1 hnd1
  rw [migrateLoop_append_ok hpre, migrateLoop_cons_scriptfail hgf hff hef]

/-- C2 witness: plan [6,7,8] from current version 5 where unit 7's script
fails — exactly version 6 is newly recorded, versions 7 and 8 stay unapplied,
the trace ends with the cancelled transaction of 7's script, and the outcome
names 7's file. -/
theorem spec_c2_witness :
    (getCurrentVersion [⟨5, none⟩] true = 5) ∧
    (List.insertionSort ascOrder (objectKeys
      [("6", ⟨"a", some "6.do.a.surql", none⟩),
       ("7", ⟨"b", some "7.do.b.surql", none⟩),
       ("8", ⟨"c", some "8.do.c.surql", none⟩)]) = ["6"] ++ "7" :: ["8"]) ∧
    (guardA 5 (.int 8) "7" = true) ∧
    ((fun s => !(s == "7.do.b.surql")) "7.do.b.surql" = false) ∧
    migrateCore
      [("6", ⟨"a", some "6.do.a.surql", none⟩),
       ("7", ⟨"b", some "7.do.b.surql", none⟩),
       ("8", ⟨"c", some "8.do.c.surql", none⟩)]
      (some "8") [⟨5, none⟩] true (fun s => !(s == "7.do.b.surql")) =
      ⟨[⟨5, none⟩] ++ ((["6"].filter (guardA 5 (.int 8))).map (entryOf
         [("6", ⟨"a", some "6.do.a.surql", none⟩),
          ("7", ⟨"b", some "7.do.b.surql", none⟩),
          ("8", ⟨"c", some "8.do.c.surql", none⟩)])),
       (((["6"].filter (guardA 5 (.int 8))).map (eventsOfA
         [("6", ⟨"a", some "6.do.a.surql", none⟩),
          ("7", ⟨"b", some "7.do.b.surql", none⟩),
          ("8", ⟨"c", some "8.do.c.surql", none⟩)])).flatten) ++
         [.txBegin, .script (sortKey "7") "7.do.b.surql", .txCancel],
       .scriptFailed "7.do.b.surql"⟩ ∧
    (migrateCore
      [("6", ⟨"a", some "6.do.a.surql", none⟩),
       ("7", ⟨"b", some "7.do.b.surql", none⟩),
       ("8", ⟨"c", some "8.do.c.surql", none⟩)]
      (some "8") [⟨5, none⟩] true (fun s => !(s == "7.do.b.surql"))).ledger =
      [⟨5, none⟩, ⟨6, some "a"⟩] :=
  ⟨by decide, by decide, by decide, by decide,
   spec_c2
     [("6", ⟨"a", some "6.do.a.surql", none⟩),
      ("7", ⟨"b", some "7.do.b.surql", none⟩),
      ("8", ⟨"c", some "8.do.c.surql", none⟩)]
     [⟨5, none⟩] (fun s => !(s == "7.do.b.surql")) "8" 8 5 ["6"] "7" ["8"] "7.do.b.surql"
     (by decide) (by decide) (by decide) (by decide) (by decide) (by decide)
     (by decide) (by decide) (by decide) (by decide),
   by decide⟩

/-- C5: an apply request whose (integer) target version is strictly below the
current version, and a revert request whose target version is at least the
current version, each end in the `DirectionMismatch` warning, produce no plan,
execute no scripts (empty trace), and leave the ledger unchanged. -/
theorem spec_c5
    (m : UnitMap) (l : Ledger) (ek : String → Bool) (tvA tvR : String) (tA tR : Int)
    (hpA : parseIntJS tvA = JSNum.int tA) (h0A : tvA ≠ "")
    (hpR : parseIntJS tvR = JSNum.int tR) (h0R : tvR ≠ "")
    (hA : tA < getCurrentVersion l true) (hR : getCurrentVersion l true ≤ tR) :
    migrateCore m (some tvA) l true ek = ⟨l, [], .warnDirection⟩ ∧
    rollbackCore m (some tvR) l true ek = ⟨l, [], .warnDirection⟩ := by
  constructor
  · rw [migrateCore_some hpA h0A, if_pos hA]
  · rw [rollbackCore_some hpR h0R, if_pos hR]

/-- C5 witness: current version 5, apply to 3 and revert to 7 both warn and do
nothing. -/
theorem spec_c5_witness :
    parseIntJS "3" = JSNum.int 3 ∧ "3" ≠ "" ∧ parseIntJS "7" = JSNum.int 7 ∧ "7" ≠ "" ∧
    (3 : Int) < getCurrentVersion [⟨5, none⟩] true ∧
    getCurrentVersion [⟨5, none⟩] true ≤ 7 ∧
    (migrateCore [("6", ⟨"t", some "6.do.t.surql", none⟩)] (some "3") [⟨5, none⟩] true
        (fun _ => true) = ⟨[⟨5, none⟩], [], .warnDirection⟩ ∧
      rollbackCore [("6", ⟨"t", some "6.do.t.surql", none⟩)] (some "7") [⟨5, none⟩] true
        (fun _ => true) = ⟨[⟨5, none⟩], [], .warnDirection⟩) :=
  ⟨by decide, by decide, by decide, by decide, by decide, by decide,
   spec_c5 [("6", ⟨"t", some "6.do.t.surql", none⟩)] [⟨5, none⟩] (fun _ => true) "3" "7" 3 7
     (by decide) (by decide) (by decide) (by decide) (by decide) (by decide)⟩

/-- C6: with no migration files discovered and an empty ledger, `getInfo`
reports `pendingMigrations = []`, but `latestVersion` is `Math.max()` of an
empty spread, i.e. `-Infinity` — not a defined in-range sentinel such as 0:
it differs from `JSNum.int n` for every integer `n`. -/
theorem spec_c6 :
    getInfo [] [] true = ⟨0, "No migrations applied", JSNum.negInf, []⟩ ∧
    (getInfo [] [] true).pendingMigrations = [] ∧
    ∀ n : Int, (getInfo [] [] true).latestVersion ≠ JSNum.int n := by
  refine ⟨by decide, by decide, ?_⟩
  intro n h
  have e : (getInfo [] [] true).latestVersion = JSNum.negInf := by decide
  rw [e] at h
  exact JSNum.noConfusion h

/-- C7: a filename with a non-integer version token is not rejected at
discovery time: `getMigrationFiles` keeps the unit under the malformed key
`"abc"` with no error, `parseInt` of the key is `NaN`, and a subsequent
apply run completes with outcome `ok`, executing nothing and reporting no
error — even when a well-formed pending unit (version 1) is also present,
because the malformed key poisons `Math.max` into `NaN`. -/
theorem spec_c7 :
    getMigrationFiles ["abc.do.init.surql"] =
      [("abc", ⟨"init", some "abc.do.init.surql", none⟩)] ∧
    parseIntJS "abc" = JSNum.nan ∧
    migrate ["abc.do.init.surql"] none [] true (fun _ => true) = ⟨[], [], .ok⟩ ∧
    migrate ["abc.do.init.surql", "1.do.t.surql"] none [] true (fun _ => true) =
      ⟨[], [], .ok⟩ := by
  exact ⟨by decide, by decide, by decide, by decide⟩

/-- C3: with units `{1: do+undo, 2: undo only}` and an empty ledger, the apply
run does not fail at planning time with a missing-script error: it first
executes and records version 1, and only when reaching version 2 does it abort
with the `path.join(directory, undefined)` `TypeError` (`badPath`), after
version 1's script has already been executed and committed. -/
theorem spec_c3 :
    (getMigrationFiles ["1.do.a.surql", "1.undo.a.surql", "2.undo.b.surql"]).find?
        (fun p => p.1 == "2") = some ("2", ⟨"b", none, some "2.undo.b.surql"⟩) ∧
    migrate ["1.do.a.surql", "1.undo.a.surql", "2.undo.b.surql"] none [] true (fun _ => true) =
      ⟨[⟨1, some "a"⟩],
       [.txBegin, .script 1 "1.do.a.surql", .txCommit, .createEntry 1 "a"], .badPath "2"⟩ ∧
    executedVersions (migrate ["1.do.a.surql", "1.undo.a.surql", "2.undo.b.surql"] none []
      true (fun _ => true)).trace = [1] := by
  exact ⟨by decide, by decide, by decide⟩

/-- C4: every ledger state reachable by apply / revert invocations has at most
one entry per version (`Nodup` on versions); a duplicate insert by
`setCurrentVersion` fails, leaving the ledger unchanged and reporting the
failure; and the failure propagates out of a run (`ledgerFailed`, run halted)
rather than being swallowed. -/
theorem spec_c4 :
    (∀ l : Ledger, Reachable l → (l.map Entry.version).Nodup) ∧
    (∀ (v : Int) (t : String) (l : Ledger), (∃ e ∈ l, e.version = v) →
      setCurrentVersion v t l = (l, false)) ∧
    migrateCore [("1", ⟨"a", some "1.do.a.surql", none⟩)] (some "1") [⟨1, none⟩] false
        (fun _ => true) =
      ⟨[⟨1, none⟩], [.txBegin, .script 1 "1.do.a.surql", .txCommit], .ledgerFailed 1⟩ := by
  refine ⟨?_, fun v t l h => setCurrentVersion_dup h, by decide⟩
  intro l h
  induction h with
  | init => simp
  | stepMigrate dirFiles tv ro ek hr ih => exact migrateCore_nodup ih
  | stepRollback dirFiles tv ro ek hr ih => exact rollbackCore_nodup ih

/-- C4 witness: a ledger reached by one apply run satisfies the uniqueness
invariant, and a concrete duplicate insert fails leaving the ledger
unchanged. -/
theorem spec_c4_witness :
    Reachable ((migrate ["1.do.a.surql"] none [] true (fun _ => true)).ledger) ∧
    (((migrate ["1.do.a.surql"] none [] true (fun _ => true)).ledger).map Entry.version).Nodup ∧
    (∃ e ∈ [(⟨3, none⟩ : Entry)], e.version = 3) ∧
    setCurrentVersion 3 "x" [⟨3, none⟩] = ([⟨3, none⟩], false) :=
  ⟨Reachable.stepMigrate _ _ _ _ Reachable.init,
   spec_c4.1 _ (Reachable.stepMigrate _ _ _ _ Reachable.init),
   by decide,
   spec_c4.2.1 3 "x" _ (by decide)⟩

/-- C8: for a unit with both scripts at version `N`, applying to `N` from
current version `N - 1` and then immediately reverting (default target
`N - 1`) succeeds, restores the current version to `N - 1`, removes version
`N`'s ledger entry, and leaves the ledger exactly as before the apply. -/
theorem spec_c8
    (m : UnitMap) (l : Ledger) (ek : String → Bool) (vN tvN ttl f g : String) (numN : Int)
    (hpv : parseIntJS vN = JSNum.int numN)
    (hptv : parseIntJS tvN = JSNum.int numN) (h0 : tvN ≠ "")
    (hnd : (m.map (fun p => sortKey p.1)).Nodup)
    (hmem : (vN, MigUnit.mk ttl (some f) (some g)) ∈ m)
    (hef : ek f = true) (heg : ek g = true)
    (hc : getCurrentVersion l true = numN - 1) :
    (migrateCore m (some tvN) l true ek).outcome = .ok ∧
    (migrateCore m (some tvN) l true ek).ledger = l ++ [entryOf m vN] ∧
    (rollbackCore m none (migrateCore m (some tvN) l true ek).ledger true ek).outcome = .ok ∧
    (rollbackCore m none (migrateCore m (some tvN) l true ek).ledger true ek).ledger = l ∧
    getCurrentVersion (rollbackCore m none (migrateCore m (some tvN) l true ek).ledger
      true ek).ledger true = numN - 1 := by
  have hu : getUnitD m vN = ⟨ttl, some f, some g⟩ := getUnitD_eq_of_mem (keysNodup_of hnd) hmem
  have hsk : sortKey vN = numN := sortKey_of_parse hpv
  have hvmemA : vN ∈ List.insertionSort ascOrder (objectKeys m) :=
    mem_versionsAsc.mpr ⟨_, hmem⟩
  have hguardA : guardA (numN - 1) (.int numN) vN = true :=
    guardA_int_iff.mpr ⟨numN, hpv, by omega, le_refl _⟩
  have huniqA : ∀ b ∈ List.insertionSort ascOrder (objectKeys m),
      guardA (numN - 1) (.int numN) b = true → b = vN := by
    intro b hb hgb
    rcases guardA_int_iff.mp hgb with ⟨nb, hpb, h2, h3⟩
    have hnb : nb = numN := by omega
    subst hnb
    exact List.inj_on_of_nodup_map (versionsAsc_sortKey_nodup hnd) hb hvmemA
      (by rw [sortKey_of_parse hpb, hsk])
  have hfilterA : (List.insertionSort ascOrder (objectKeys m)).filter
      (guardA (numN - 1) (.int numN)) = [vN] :=
    filter_eq_singleton (versionsAsc_nodup hnd) hvmemA hguardA huniqA
  have hrunA : migrateLoop m (numN - 1) (.int numN) ek l
      (List.insertionSort ascOrder (objectKeys m)) =
      ⟨l ++ [entryOf m vN], eventsOfA m vN ++ [], .ok⟩ := by
    rw [migrateLoop_ok
      (fun v hv hg => by rcases huniqA v hv hg with rfl; rw [hu]; rfl)
      (fun v hv hg => by rcases huniqA v hv hg with rfl; rw [hu]; exact hef)
      (fun v hv hg e he hEq => by
        rcases huniqA v hv hg with rfl
        rw [hsk] at hEq
        have hle := version_le_getCurrentVersion he
        rw [hc] at hle
        omega)
      (by rw [hfilterA]; simp)]
    rw [hfilterA]
    simp
  have hcoreA : migrateCore m (some tvN) l true ek =
      ⟨l ++ [entryOf m vN], eventsOfA m vN ++ [], .ok⟩ := by
    rw [migrateCore_some hptv h0, hc, if_neg (by omega), if_neg (by omega), hrunA]
  have hvers : (entryOf m vN).version = numN := by simp [entryOf, hsk]
  have hcur1 : getCurrentVersion (l ++ [entryOf m vN]) true = numN := by
    apply getCurrentVersion_eq_of ⟨entryOf m vN, by simp, hvers⟩
    intro x hx
    rcases List.mem_append.mp hx with hl2 | hone
    · have hle := version_le_getCurrentVersion hl2
      rw [hc] at hle
      omega
    · rcases List.mem_singleton.mp hone with rfl
      rw [hvers]
  have hvmemD : vN ∈ List.insertionSort descOrder (objectKeys m) :=
    mem_versionsDesc.mpr ⟨_, hmem⟩
  have hguardR : guardR numN (.int (numN - 1)) vN = true :=
    guardR_int_iff.mpr ⟨numN, hpv, by omega, le_refl _⟩
  have huniqR : ∀ b ∈ List.insertionSort descOrder (objectKeys m),
      guardR numN (.int (numN - 1)) b = true → b = vN := by
    intro b hb hgb
    rcases guardR_int_iff.mp hgb with ⟨nb, hpb, h2, h3⟩
    have hnb : nb = numN := by omega
    subst hnb
    exact List.inj_on_of_nodup_map (versionsDesc_sortKey_nodup hnd) hb hvmemD
      (by rw [sortKey_of_parse hpb, hsk])
  have hfilterR : (List.insertionSort descOrder (objectKeys m)).filter
      (guardR numN (.int (numN - 1))) = [vN] :=
    filter_eq_singleton (versionsDesc_nodup hnd) hvmemD hguardR huniqR
  have hl2eq : (l ++ [entryOf m vN]).filter (fun e => !(e.version == sortKey vN)) = l := by
    rw [List.filter_append]
    have h1 : l.filter (fun e => !(e.version == sortKey vN)) = l := by
      rw [List.filter_eq_self]
      intro e he
      have hle := version_le_getCurrentVersion he
      rw [hc] at hle
      simp only [Bool.not_eq_true', beq_eq_false_iff_ne]
      rw [hsk]
      omega
    have h2 : ([entryOf m vN]).filter (fun e => !(e.version == sortKey vN)) = [] := by
      simp [entryOf]
    rw [h1, h2, List.append_nil]
  have hrunR : rollbackLoop m numN (.int (numN - 1)) ek (l ++ [entryOf m vN])
      (List.insertionSort descOrder (objectKeys m)) =
      ⟨l, eventsOfR m vN ++ [], .ok⟩ := by
    rw [rollbackLoop_ok
      (fun v hv hg => by rcases huniqR v hv hg with rfl; rw [hu]; rfl)
      (fun v hv hg => by rcases huniqR v hv hg with rfl; rw [hu]; exact heg)]
    rw [hfilterR]
    simp only [List.foldl_cons, List.foldl_nil, List.map_cons, List.map_nil,
      List.flatten_cons, List.flatten_nil, hl2eq]
  have hcoreR : rollbackCore m none (l ++ [entryOf m vN]) true ek =
      ⟨l, eventsOfR m vN ++ [], .ok⟩ := by
    rw [rollbackCore_none, hcur1, hrunR]
  rw [hcoreA]
  exact ⟨rfl, rfl, by rw [hcoreR], by rw [hcoreR], by rw [hcoreR]; exact hc⟩

/-- C8 witness: unit 4 with both scripts, ledger at version 3; apply to 4 then
revert restores version 3 and the original ledger. -/
theorem spec_c8_witness :
    (parseIntJS "4" = JSNum.int 4) ∧
    (("4", (⟨"t", some "4.do.t.surql", some "4.undo.t.surql"⟩ : MigUnit)) ∈
      [("3", (⟨"s", some "3.do.s.surql", some "3.undo.s.surql"⟩ : MigUnit)),
       ("4", ⟨"t", some "4.do.t.surql", some "4.undo.t.surql"⟩)]) ∧
    (getCurrentVersion [⟨3, some "s"⟩] true = 3) ∧
    ((migrateCore
        [("3", ⟨"s", some "3.do.s.surql", some "3.undo.s.surql"⟩),
         ("4", ⟨"t", some "4.do.t.surql", some "4.undo.t.surql"⟩)]
        (some "4") [⟨3, some "s"⟩] true (fun _ => true)).outcome = .ok ∧
      (migrateCore
        [("3", ⟨"s", some "3.do.s.surql", some "3.undo.s.surql"⟩),
         ("4", ⟨"t", some "4.do.t.surql", some "4.undo.t.surql"⟩)]
        (some "4") [⟨3, some "s"⟩] true (fun _ => true)).ledger =
        [⟨3, some "s"⟩] ++ [entryOf
          [("3", ⟨"s", some "3.do.s.surql", some "3.undo.s.surql"⟩),
           ("4", ⟨"t", some "4.do.t.surql", some "4.undo.t.surql"⟩)] "4"] ∧
      (rollbackCore
        [("3", ⟨"s", some "3.do.s.surql", some "3.undo.s.surql"⟩),
         ("4", ⟨"t", some "4.do.t.surql", some "4.undo.t.surql"⟩)] none
        (migrateCore
          [("3", ⟨"s", some "3.do.s.surql", some "3.undo.s.surql"⟩),
           ("4", ⟨"t", some "4.do.t.surql", some "4.undo.t.surql"⟩)]
          (some "4") [⟨3, some "s"⟩] true (fun _ => true)).ledger true
        (fun _ => true)).outcome = .ok ∧
      (rollbackCore
        [("3", ⟨"s", some "3.do.s.surql", some "3.undo.s.surql"⟩),
         ("4", ⟨"t", some "4.do.t.surql", some "4.undo.t.surql"⟩)] none
        (migrateCore
          [("3", ⟨"s", some "3.do.s.surql", some "3.undo.s.surql"⟩),
           ("4", ⟨"t", some "4.do.t.surql", some "4.undo.t.surql"⟩)]
          (some "4") [⟨3, some "s"⟩] true (fun _ => true)).ledger true
        (fun _ => true)).ledger = [⟨3, some "s"⟩] ∧
      getCurrentVersion (rollbackCore
        [("3", ⟨"s", some "3.do.s.surql", some "3.undo.s.surql"⟩),
         ("4", ⟨"t", some "4.do.t.surql", some "4.undo.t.surql"⟩)] none
        (migrateCore
          [("3", ⟨"s", some "3.do.s.surql", some "3.undo.s.surql"⟩),
           ("4", ⟨"t", some "4.do.t.surql", some "4.undo.t.surql"⟩)]
          (some "4") [⟨3, some "s"⟩] true (fun _ => true)).ledger true
        (fun _ => true)).ledger true = 4 - 1) :=
  ⟨by decide, by decide, by decide,
   spec_c8
     [("3", ⟨"s", some "3.do.s.surql", some "3.undo.s.surql"⟩),
      ("4", ⟨"t", some "4.do.t.surql", some "4.undo.t.surql"⟩)]
     [⟨3, some "s"⟩] (fun _ => true) "4" "4" "t" "4.do.t.surql" "4.undo.t.surql" 4
     (by decide) (by decide) (by decide) (by decide) (by decide) (by decide) (by decide)
     (by decide)⟩

theorem migrateCore_none {m : UnitMap} {l : Ledger} {ro : Bool} {ek : String → Bool} :
    migrateCore m none l ro ek =
      if JSNum.ltB (jsMax ((List.insertionSort ascOrder (objectKeys m)).map parseIntJS))
          (.int (getCurrentVersion l ro)) then ⟨l, [], .warnDirection⟩
      else if JSNum.seqB (jsMax ((List.insertionSort ascOrder (objectKeys m)).map parseIntJS))
          (.int (getCurrentVersion l ro)) then ⟨l, [], .upToDate⟩
      else migrateLoop m (getCurrentVersion l ro)
        (jsMax ((List.insertionSort ascOrder (objectKeys m)).map parseIntJS)) ek l
        (List.insertionSort ascOrder (objectKeys m)) := rfl

/-- C9: after a successful apply-to-latest run (no `--to` target), a second
apply-to-latest invocation over the same files reports "up to date": it
produces an empty trace (no plan, no scripts) and leaves the ledger
unchanged. -/
theorem spec_c9
    (m : UnitMap) (l : Ledger) (ek : String → Bool)
    (hm : m ≠ [])
    (hkeys : ∀ p ∈ m, ∃ n : Int, parseIntJS p.1 = JSNum.int n)
    (hok : (migrateCore m none l true ek).outcome = .ok) :
    migrateCore m none (migrateCore m none l true ek).ledger true ek =
      ⟨(migrateCore m none l true ek).ledger, [], .upToDate⟩ := by
  have hvkeys : ∀ x ∈ (List.insertionSort ascOrder (objectKeys m)).map parseIntJS,
      ∃ n : Int, x = .int n := by
    intro x hx
    rcases List.mem_map.mp hx with ⟨v, hv, rfl⟩
    rcases mem_versionsAsc.mp hv with ⟨u, hu⟩
    exact hkeys (v, u) hu
  have hvne : (List.insertionSort ascOrder (objectKeys m)).map parseIntJS ≠ [] := by
    rcases List.exists_mem_of_ne_nil m hm with ⟨p, hp⟩
    have hmemv : p.1 ∈ List.insertionSort ascOrder (objectKeys m) :=
      mem_versionsAsc.mpr ⟨p.2, hp⟩
    intro hc2
    rw [List.map_eq_nil_iff] at hc2
    rw [hc2] at hmemv
    cases hmemv
  rcases jsMax_int hvne hvkeys with ⟨T, hT, hTmem, hTbound⟩
  have h1 : JSNum.ltB (jsMax ((List.insertionSort ascOrder (objectKeys m)).map parseIntJS))
      (.int (getCurrentVersion l true)) = false := by
    cases hb : JSNum.ltB (jsMax ((List.insertionSort ascOrder (objectKeys m)).map parseIntJS))
        (.int (getCurrentVersion l true))
    · rfl
    · have hok2 := hok
      rw [migrateCore_none, hb] at hok2
      simp at hok2
  have h2 : JSNum.seqB (jsMax ((List.insertionSort ascOrder (objectKeys m)).map parseIntJS))
      (.int (getCurrentVersion l true)) = false := by
    cases hb : JSNum.seqB (jsMax ((List.insertionSort ascOrder (objectKeys m)).map parseIntJS))
        (.int (getCurrentVersion l true))
    · rfl
    · have hok2 := hok
      rw [migrateCore_none, h1, hb] at hok2
      simp at hok2
  have hrun1 : migrateCore m none l true ek =
      migrateLoop m (getCurrentVersion l true)
        (jsMax ((List.insertionSort ascOrder (objectKeys m)).map parseIntJS)) ek l
        (List.insertionSort ascOrder (objectKeys m)) := by
    rw [migrateCore_none, h1, h2]
    simp
  have hTc : getCurrentVersion l true < T := by
    rw [hT] at h1 h2
    simp only [JSNum.ltB, decide_eq_false_iff_not] at h1
    simp only [JSNum.seqB, beq_eq_false_iff_ne] at h2
    omega
  have hok3 : (migrateLoop m (getCurrentVersion l true)
      (jsMax ((List.insertionSort ascOrder (objectKeys m)).map parseIntJS)) ek l
      (List.insertionSort ascOrder (objectKeys m))).outcome = .ok := by
    rw [← hrun1]
    exact hok
  have hled : (migrateCore m none l true ek).ledger =
      l ++ (((List.insertionSort ascOrder (objectKeys m)).filter
        (guardA (getCurrentVersion l true)
          (jsMax ((List.insertionSort ascOrder (objectKeys m)).map parseIntJS)))).map
        (entryOf m)) := by
    rw [hrun1]
    exact migrateLoop_ledger_of_ok hok3
  rcases List.mem_map.mp hTmem with ⟨vT, hvT, hpT⟩
  have hguardT : guardA (getCurrentVersion l true)
      (jsMax ((List.insertionSort ascOrder (objectKeys m)).map parseIntJS)) vT = true := by
    rw [hT]
    exact guardA_int_iff.mpr ⟨T, hpT, hTc, le_refl _⟩
  have hcur1 : getCurrentVersion (migrateCore m none l true ek).ledger true = T := by
    apply getCurrentVersion_eq_of
    · refine ⟨entryOf m vT, ?_, ?_⟩
      · rw [hled]
        exact List.mem_append_right _ (List.mem_map.mpr
          ⟨vT, List.mem_filter.mpr ⟨hvT, hguardT⟩, rfl⟩)
      · simp [entryOf, sortKey_of_parse hpT]
    · intro e he
      rw [hled] at he
      rcases List.mem_append.mp he with hel | hee
      · have hle := version_le_getCurrentVersion hel
        omega
      · rcases List.mem_map.mp hee with ⟨v2, hv2f, rfl⟩
        rcases List.mem_filter.mp hv2f with ⟨hv2, hg2⟩
        rcases guardA_int_iff.mp (by rw [hT] at hg2; exact hg2) with ⟨n2, hpn2, hb2, hb3⟩
        simp [entryOf, sortKey_of_parse hpn2]
        omega
  rw [migrateCore_none, hcur1, hT]
  simp [JSNum.ltB, JSNum.seqB]

/-- C9 witness: units {1,2} applied to latest from an empty ledger; the second
apply-to-latest is a no-op reporting "up to date". -/
theorem spec_c9_witness :
    ([("1", (⟨"a", some "1.do.a.surql", none⟩ : MigUnit)),
      ("2", ⟨"b", some "2.do.b.surql", none⟩)] ≠ []) ∧
    ((migrateCore [("1", ⟨"a", some "1.do.a.surql", none⟩),
        ("2", ⟨"b", some "2.do.b.surql", none⟩)] none [] true (fun _ => true)).outcome =
      .ok) ∧
    migrateCore [("1", ⟨"a", some "1.do.a.surql", none⟩),
        ("2", ⟨"b", some "2.do.b.surql", none⟩)] none
      (migrateCore [("1", ⟨"a", some "1.do.a.surql", none⟩),
        ("2", ⟨"b", some "2.do.b.surql", none⟩)] none [] true (fun _ => true)).ledger
      true (fun _ => true) =
      ⟨(migrateCore [("1", ⟨"a", some "1.do.a.surql", none⟩),
        ("2", ⟨"b", some "2.do.b.surql", none⟩)] none [] true (fun _ => true)).ledger,
       [], .upToDate⟩ :=
  ⟨by decide, by decide,
   spec_c9 [("1", ⟨"a", some "1.do.a.surql", none⟩), ("2", ⟨"b", some "2.do.b.surql", none⟩)]
     [] (fun _ => true) (by decide)
     (by intro p hp
         rcases List.mem_cons.mp hp with rfl | hp2
         · exact ⟨1, by decide⟩
         · rcases List.mem_singleton.mp hp2 with rfl
           exact ⟨2, by decide⟩)
     (by decide)⟩

/-- C10: a failing ledger query inside `getCurrentVersion` is caught and
yields 0 (for every ledger state), so a migrate run with a failing ledger read
plans from current version 0: it executes exactly the scripts of every
discovered version `v` with `0 < v ≤ target`, re-applying migrations
regardless of what the ledger actually contains. -/
theorem spec_c10
    (m : UnitMap) (l : Ledger) (ek : String → Bool) (tv : String) (t : Int)
    (hp : parseIntJS tv = JSNum.int t) (h0 : tv ≠ "")
    (hnd : (m.map (fun p => sortKey p.1)).Nodup)
    (hdo : ∀ p ∈ m, 0 < sortKey p.1 → sortKey p.1 ≤ t → (p.2.doFile).isSome = true)
    (hex : ∀ p ∈ m, 0 < sortKey p.1 → sortKey p.1 ≤ t → ek (p.2.doFile.getD "") = true)
    (hfresh : ∀ e ∈ l, ¬(0 < e.version ∧ e.version ≤ t)) :
    (∀ l2 : Ledger, getCurrentVersion l2 false = 0) ∧
    (∀ n : Int, n ∈ executedVersions (migrateCore m (some tv) l false ek).trace ↔
      ((∃ p ∈ m, parseIntJS p.1 = JSNum.int n) ∧ 0 < n ∧ n ≤ t)) := by
  have hc : getCurrentVersion l false = 0 := rfl
  obtain ⟨htrace, _⟩ := migrateCore_exec_versions hp h0 hc hnd hdo hex hfresh
  refine ⟨fun l2 => rfl, fun n => ?_⟩
  rw [htrace]
  exact mem_exec_filterA_iff

/-- C10 witness: ledger holds version 9 but its read fails; migrating to 2
re-executes versions 1 and 2 from scratch. -/
theorem spec_c10_witness :
    (parseIntJS "2" = JSNum.int 2) ∧
    (∀ e ∈ [(⟨9, none⟩ : Entry)], ¬(0 < e.version ∧ e.version ≤ 2)) ∧
    ((∀ l2 : Ledger, getCurrentVersion l2 false = 0) ∧
      (∀ n : Int, n ∈ executedVersions (migrateCore
          [("1", ⟨"a", some "1.do.a.surql", none⟩),
           ("2", ⟨"b", some "2.do.b.surql", none⟩)]
          (some "2") [⟨9, none⟩] false (fun _ => true)).trace ↔
        ((∃ p ∈ [("1", (⟨"a", some "1.do.a.surql", none⟩ : MigUnit)),
           ("2", ⟨"b", some "2.do.b.surql", none⟩)], parseIntJS p.1 = JSNum.int n) ∧
          0 < n ∧ n ≤ 2))) ∧
    executedVersions (migrateCore
        [("1", ⟨"a", some "1.do.a.surql", none⟩),
         ("2", ⟨"b", some "2.do.b.surql", none⟩)]
        (some "2") [⟨9, none⟩] false (fun _ => true)).trace = [1, 2] :=
  ⟨by decide, by decide,
   spec_c10 [("1", ⟨"a", some "1.do.a.surql", none⟩), ("2", ⟨"b", some "2.do.b.surql", none⟩)]
     [⟨9, none⟩] (fun _ => true) "2" 2
     (by decide) (by decide) (by decide) (by decide) (by decide) (by decide),
   by decide⟩

end Surrealigrate

open Surrealigrate in
example : parseIntJS "12" = JSNum.int 12 := by decide

open Surrealigrate in
example : parseIntJS "abc" = JSNum.nan := by decide

open Surrealigrate in
example : parseIntJS "3.do" = JSNum.int 3 := by decide

open Surrealigrate in
example :
    getMigrationFiles ["1.do.a.surql", "1.undo.a.surql", "2.undo.b.surql"] =
      [("1", ⟨"a", some "1.do.a.surql", some "1.undo.a.surql"⟩),
       ("2", ⟨"b", none, some "2.undo.b.surql"⟩)] := by decide

open Surrealigrate in
example :
    migrate ["1.do.a.surql", "2.do.b.surql"] none [] true (fun _ => true) =
      ⟨[⟨1, some "a"⟩, ⟨2, some "b"⟩],
       [.txBegin, .script 1 "1.do.a.surql", .txCommit, .createEntry 1 "a",
        .txBegin, .script 2 "2.do.b.surql", .txCommit, .createEntry 2 "b"], .ok⟩ := by decide

open Surrealigrate in
example :
    rollback ["1.do.a.surql", "1.undo.a.surql"] none [⟨1, some "a"⟩] true (fun _ => true) =
      ⟨[], [.txBegin, .script 1 "1.undo.a.surql", .txCommit, .deleteEntry 1], .ok⟩ := by decide

open Surrealigrate in
example :
    getInfo [] [] true = ⟨0, "No migrations applied", JSNum.negInf, []⟩ := by decide

open Surrealigrate in
example :
    migrate ["abc.do.init.surql", "1.do.t.surql"] none [] true (fun _ => true) =
      ⟨[], [], .ok⟩ := by decide
